import Mathlib

/-!
Verification of the Map-Gen island generator against its specification.

The TypeScript source (an island terrain generator built on three.js) is
shallowly embedded below over exact rationals.  Conventions used throughout:

* `THREE.Vector2` / `THREE.Vector3` become `Pt2` / `Pt3` with `ℚ` fields
  (the x/z plane is horizontal, y is up, exactly as in the source).
* Stateful loops become structural recursion or folds with explicit state.
* `Math.random()` becomes an explicit stream of rationals, one oracle per
  call site, each assumed to produce values in `[0, 1)` where a claim
  needs that fact.
* Transcendental library calls (`Math.sin`, `Math.sqrt`, `Math.atan2`,
  `ImprovedNoise.noise`, triangle areas computed through square roots) are
  modelled as abstract function parameters; the only facts used about them
  are the ones the corresponding floating-point functions also satisfy
  (for instance `|sin| ≤ 1`), stated as explicit hypotheses.
-/

namespace MapGen

/-- A point of the horizontal (x, z) plane, as used by the tessellation
(`basePointXZ`, contour points projected from above). -/
structure Pt2 where
  x : ℚ
  z : ℚ
deriving DecidableEq, Repr

/-- A 3D point with y up, mirroring `THREE.Vector3` fields used by the code. -/
structure Pt3 where
  x : ℚ
  y : ℚ
  z : ℚ
deriving DecidableEq, Repr

instance : Inhabited Pt2 := ⟨⟨0, 0⟩⟩

instance : Inhabited Pt3 := ⟨⟨0, 0, 0⟩⟩

/-- Subtraction of plane points, componentwise. -/
def sub2 (a b : Pt2) : Pt2 := ⟨a.x - b.x, a.z - b.z⟩

/-- The y-component of the 3D cross product `u × v` of two horizontal
vectors, i.e. `u.z * v.x - u.x * v.z`.  For a triangle `(a, b, c)` the
value `cross2 (b - a) (c - a)` is the y-component of the (unnormalized)
face normal `(b - a) × (c - a)` that `THREE.Triangle.getNormal` computes,
so its sign is exactly the winding of the triangle viewed from above. -/
def cross2 (u v : Pt2) : ℚ := u.z * v.x - u.x * v.z

/-- A triangle of the tessellation, recorded by the horizontal (x, z)
coordinates of its three vertices in emission order.  Heights do not
enter the viewed-from-above winding test, so they are dropped here. -/
def Tri2 : Type := Pt2 × Pt2 × Pt2

instance : DecidableEq Tri2 := by unfold Tri2; infer_instance

/-- The y-component of the face normal `(b - a) × (c - a)` of a triangle:
positive sign is one winding viewed from above, negative the other, zero a
triangle that projects to a degenerate (zero-area) figure from above. -/
def crossY (t : Tri2) : ℚ := cross2 (sub2 t.2.1 t.1) (sub2 t.2.2 t.1)

/-- Linear interpolation of plane points, `THREE.Vector2.lerp`:
`this.x += (v.x - this.x) * alpha` componentwise. -/
def lerp2 (a b : Pt2) (t : ℚ) : Pt2 :=
  ⟨a.x + (b.x - a.x) * t, a.z + (b.z - a.z) * t⟩

/-- Scalar linear interpolation, `THREE.MathUtils.lerp(x, y, t) = (1-t)*x + t*y`. -/
def lerpQ (x y t : ℚ) : ℚ := (1 - t) * x + t * y

/-! ### Contour Builder density law (`generateIsland`, rock ring sizes)

`const DENSITY_BASE_ROCKS = 75; const DENSITY_BASE_RADIUS = 20;
const DENSITY_SCALE_POWER = 1;
const densityCoefficient = DENSITY_BASE_ROCKS / Math.pow(DENSITY_BASE_RADIUS, DENSITY_SCALE_POWER);
const numLargeRocks = Math.max(3, Math.round(densityCoefficient * Math.pow(baseRadius, DENSITY_SCALE_POWER)));
const outerRadius = baseRadius + shorelineOffset;
const numSmallRocks = Math.max(3, Math.round(densityCoefficient * Math.pow(outerRadius, DENSITY_SCALE_POWER)));` -/

def DENSITY_BASE_ROCKS : ℚ := 75

/-- Reference radius of the density law. -/
def DENSITY_BASE_RADIUS : ℚ := 20

/-- Exponent of the density law (the code uses `p = 1`). -/
def DENSITY_SCALE_POWER : ℕ := 1

/-- The density coefficient `k = baseCount / baseRadius ^ p`. -/
def densityCoefficient : ℚ := DENSITY_BASE_ROCKS / DENSITY_BASE_RADIUS ^ DENSITY_SCALE_POWER

/-- JavaScript `Math.round`: round half toward positive infinity,
`Math.round(x) = ⌊x + 1/2⌋`. -/
def jsRound (q : ℚ) : ℤ := ⌊q + 1 / 2⌋

/-- Number of rocks (hence contour points) of the inner ring. -/
def numLargeRocks (baseRadius : ℚ) : ℤ :=
  max 3 (jsRound (densityCoefficient * baseRadius ^ DENSITY_SCALE_POWER))

/-- Radius at which the outer (shoreline) rock ring is generated. -/
def outerRadius (baseRadius shorelineOffset : ℚ) : ℚ := baseRadius + shorelineOffset

/-- Number of rocks of the outer ring. -/
def numSmallRocks (baseRadius shorelineOffset : ℚ) : ℤ :=
  max 3 (jsRound (densityCoefficient * outerRadius baseRadius shorelineOffset ^ DENSITY_SCALE_POWER))

/-! ### Noise Field (`generateNoise`)

Four harmonics `{freq: 1, amp: 1.0}, {freq: 2, amp: 0.5}, {freq: 5, amp: 0.25},
{freq: 9, amp: 0.125}`; `totalAmplitude` is their summed amplitude; entry `i`
is `Σ_h sin(angle_i * freq_h + phase_h) * amp_h`, divided by `totalAmplitude`.
`Math.sin` evaluated at the angle of harmonic `h` and point `i` is modelled by
the abstract oracle `s h i`; the floating-point sine also satisfies the bound
`|s h i| ≤ 1` assumed by the claim theorem. -/

/-- The harmonic table of `generateNoise`: (frequency, amplitude) pairs. -/
def harmonics : List (ℚ × ℚ) := [(1, 1), (2, 1/2), (5, 1/4), (9, 1/8)]

/-- Summed amplitude of the harmonics (`totalAmplitude` in the source). -/
def totalAmplitude : ℚ := (harmonics.map Prod.snd).foldl (· + ·) 0

/-- Value `i` of `generateNoise`: the sine oracle of each harmonic scaled by
its amplitude, summed over the harmonic table, then normalized by
`totalAmplitude`. -/
def generateNoiseVal (s : ℕ → ℕ → ℚ) (i : ℕ) : ℚ :=
  ((List.range harmonics.length).map
    (fun h => s h i * (harmonics.getD h (0, 0)).2)).foldl (· + ·) 0 / totalAmplitude

/-! ### Hydrology Tracer: river descent walk (`traceRiverPath`)

The walk keeps a current point; at each of at most `maxSteps = 200` steps it
collects the raycast hits of the seven forward arc samples (modelled by the
oracle `samples`, returning whatever list of intersection points the raycasts
produced at that step), sorts them ascending by elevation (`Array.sort` with
comparator `a.elevation - b.elevation`, a stable sort, modelled by a stable
insertion sort on `y`), takes the lowest, breaks **before** appending when the
best candidate is not strictly lower than the current point, and breaks
**after** appending when the new point is inside a lake below its water
level. -/

/-- A lake record: center (x, z), radius, depth and resulting water level. -/
structure Lake where
  centerX : ℚ
  centerZ : ℚ
  radius : ℚ
  depth : ℚ
  waterLevel : ℚ
deriving DecidableEq, Repr

/-- Insert a point into a list sorted ascending by `y` (stable: insertion
strictly before the first entry with larger `y`, matching a stable sort with
comparator `a.elevation - b.elevation`). -/
def insertByY (p : Pt3) : List Pt3 → List Pt3
  | [] => [p]
  | q :: rest => if p.y < q.y then p :: q :: rest else q :: insertByY p rest

/-- Stable sort of sample points ascending by elevation `y`. -/
def sortByY : List Pt3 → List Pt3
  | [] => []
  | p :: rest => insertByY p (sortByY rest)

/-- Squared horizontal distance of a 3D point to a lake center. -/
def distSqToLake (p : Pt3) (lake : Lake) : ℚ :=
  (p.x - lake.centerX) ^ 2 + (p.z - lake.centerZ) ^ 2

/-- The river termination test `currentPoint.y < lake.waterLevel ∧
dist(currentPoint, lake.center) < lake.radius` for some lake.  The source
compares the (nonnegative) distance with the radius; squaring both sides is
the exact square-root-free equivalent when the radius is nonnegative, and for
a negative radius both tests are false. -/
def inLakeBelowWater (p : Pt3) (lakes : List Lake) : Bool :=
  lakes.any (fun lake =>
    decide (p.y < lake.waterLevel) &&
    decide (0 ≤ lake.radius) && decide (distSqToLake p lake < lake.radius ^ 2))

/-- The descent loop of `traceRiverPath`, producing the points appended after
the start point.  `samples i cur` is the list of raycast hit points of the
seven arc samples at step `i` from current point `cur` (in source order);
`fuel` counts the remaining steps of the `for (let i = 0; i < maxSteps; i++)`
loop. -/
def traceRiverFrom (samples : ℕ → Pt3 → List Pt3) (lakes : List Lake) :
    ℕ → ℕ → Pt3 → List Pt3
  | 0, _, _ => []
  | fuel + 1, i, cur =>
    match sortByY (samples i cur) with
    | [] => []
    | next :: _ =>
      if cur.y ≤ next.y then []
      else if inLakeBelowWater next lakes then [next]
      else next :: traceRiverFrom samples lakes fuel (i + 1) next

/-- Maximum number of descent steps of a river walk (`maxSteps` in the source). -/
def riverMaxSteps : ℕ := 200

/-- `traceRiverPath`: the start point followed by the points the descent walk
appends. -/
def traceRiverPath (samples : ℕ → Pt3 → List Pt3) (lakes : List Lake)
    (startPoint : Pt3) : List Pt3 :=
  startPoint :: traceRiverFrom samples lakes riverMaxSteps 0 startPoint

/-! ### Surface Tessellator triangles (`generateIsland`)

The central island surface builds one center vertex, `numRings = 60` concentric
rings of `numSegments` vertices (ring `r` at eased radial parameter
`ringLerp = 1 - (1 - t)^2`, `t = (r+1)/(numRings+1)`, each vertex at
`basePointXZ = centerXZ.lerp(edgeXZ, ringLerp)`), one ring of the boundary
contour itself, and a bottom skirt ring sharing the contour's (x, z)
coordinates at height 0.  The ground-cover band interpolates rows between the
outer shoreline points and the inner boundary points with `ringLerp = r/32`,
plus its own skirt sharing the outer points' (x, z).  Triangles are listed
below exactly in the corner order the source pushes their indices; only the
horizontal coordinates are kept because the viewed-from-above winding test is
independent of vertex heights. -/

/-- Number of interior rings of the central surface (`numRings = 60`). -/
def centralNumRings : ℕ := 60

/-- Radial easing of central ring `r`: `t = (r+1)/(numRings+1)`,
`ringLerp = 1 - (1-t)^2`. -/
def ringLerpCentral (r : ℕ) : ℚ :=
  1 - (1 - ((r : ℚ) + 1) / ((centralNumRings : ℚ) + 1)) ^ 2

/-- Contour vertex `s` (the code indexes `centralContourVertices[s]`). -/
def contourAt (contour : List Pt2) (s : ℕ) : Pt2 := contour.getD s default

/-- Horizontal position of central grid vertex `(r, s)`:
`centerXZ.lerp(edgePointXZ, ringLerp)`. -/
def gridXZ (centerPoint : Pt2) (contour : List Pt2) (r s : ℕ) : Pt2 :=
  lerp2 centerPoint (contourAt contour s) (ringLerpCentral r)

/-- Center-fan triangle at segment `s`:
`indices.push(0, gridIndices[0][s], gridIndices[0][(s+1) % numSegments])`. -/
def fanTriAt (centerPoint : Pt2) (contour : List Pt2) (s : ℕ) : Tri2 :=
  (centerPoint, gridXZ centerPoint contour 0 s,
    gridXZ centerPoint contour 0 ((s + 1) % contour.length))

/-- First triangle of the ring quad `(r, s)`:
`indices.push(gridIndices[r][s], gridIndices[r][next_s], gridIndices[r+1][next_s])`. -/
def ringTriA (centerPoint : Pt2) (contour : List Pt2) (r s : ℕ) : Tri2 :=
  (gridXZ centerPoint contour r s,
    gridXZ centerPoint contour r ((s + 1) % contour.length),
    gridXZ centerPoint contour (r + 1) ((s + 1) % contour.length))

/-- Second triangle of the ring quad `(r, s)`:
`indices.push(gridIndices[r][s], gridIndices[r+1][next_s], gridIndices[r+1][s])`. -/
def ringTriB (centerPoint : Pt2) (contour : List Pt2) (r s : ℕ) : Tri2 :=
  (gridXZ centerPoint contour r s,
    gridXZ centerPoint contour (r + 1) ((s + 1) % contour.length),
    gridXZ centerPoint contour (r + 1) s)

/-- First triangle of the last-ring-to-boundary transition at segment `s`. -/
def transTriA (centerPoint : Pt2) (contour : List Pt2) (s : ℕ) : Tri2 :=
  (gridXZ centerPoint contour (centralNumRings - 1) s,
    gridXZ centerPoint contour (centralNumRings - 1) ((s + 1) % contour.length),
    contourAt contour ((s + 1) % contour.length))

/-- Second triangle of the last-ring-to-boundary transition at segment `s`. -/
def transTriB (centerPoint : Pt2) (contour : List Pt2) (s : ℕ) : Tri2 :=
  (gridXZ centerPoint contour (centralNumRings - 1) s,
    contourAt contour ((s + 1) % contour.length),
    contourAt contour s)

/-- First skirt-wall triangle at segment `s`:
`(contourIndices[s], contourIndices[next_s], bottomSkirtStartIndex + next_s)`;
the bottom skirt vertex shares the contour vertex's horizontal coordinates. -/
def skirtTriA (contour : List Pt2) (s : ℕ) : Tri2 :=
  (contourAt contour s, contourAt contour ((s + 1) % contour.length),
    contourAt contour ((s + 1) % contour.length))

/-- Second skirt-wall triangle at segment `s`:
`(contourIndices[s], bottomSkirtStartIndex + next_s, bottomSkirtStartIndex + s)`. -/
def skirtTriB (contour : List Pt2) (s : ℕ) : Tri2 :=
  (contourAt contour s, contourAt contour ((s + 1) % contour.length),
    contourAt contour s)

/-- All center-fan triangles. -/
def centralFanTris (centerPoint : Pt2) (contour : List Pt2) : List Tri2 :=
  (List.range contour.length).map (fanTriAt centerPoint contour)

/-- All ring-band triangles (`for r in [0, numRings-1), for s`). -/
def centralRingTris (centerPoint : Pt2) (contour : List Pt2) : List Tri2 :=
  (List.range (centralNumRings - 1)).bind (fun r =>
    (List.range contour.length).bind (fun s =>
      [ringTriA centerPoint contour r s, ringTriB centerPoint contour r s]))

/-- All ring-to-boundary transition triangles. -/
def centralTransTris (centerPoint : Pt2) (contour : List Pt2) : List Tri2 :=
  (List.range contour.length).bind (fun s =>
    [transTriA centerPoint contour s, transTriB centerPoint contour s])

/-- All skirt-wall triangles of the central surface. -/
def centralSkirtTris (contour : List Pt2) : List Tri2 :=
  (List.range contour.length).bind (fun s => [skirtTriA contour s, skirtTriB contour s])

/-- All triangles of the central island surface, in emission order. -/
def centralSurfaceTris (centerPoint : Pt2) (contour : List Pt2) : List Tri2 :=
  centralFanTris centerPoint contour ++ centralRingTris centerPoint contour ++
    centralTransTris centerPoint contour ++ centralSkirtTris contour

/-- Number of rows of the ground-cover band (`numRings = 32`). -/
def groundNumRings : ℕ := 32

/-- Horizontal position of ground-cover row vertex `(r, s)`:
`outerPoint.clone().lerp(innerPoint, r / numRings)`. -/
def groundRow (outerPts innerPts : List Pt2) (r s : ℕ) : Pt2 :=
  lerp2 (outerPts.getD s default) (innerPts.getD s default)
    ((r : ℚ) / (groundNumRings : ℚ))

/-- First triangle of ground-cover cell `(r, s)`:
`(i_tl, i_bl, i_br)` with `tl = (r, s)`, `bl = (r+1, s)`, `br = (r+1, next_s)`. -/
def groundTriA (outerPts innerPts : List Pt2) (r s : ℕ) : Tri2 :=
  (groundRow outerPts innerPts r s,
    groundRow outerPts innerPts (r + 1) s,
    groundRow outerPts innerPts (r + 1) ((s + 1) % innerPts.length))

/-- Second triangle of ground-cover cell `(r, s)`: `(i_tl, i_br, i_tr)`. -/
def groundTriB (outerPts innerPts : List Pt2) (r s : ℕ) : Tri2 :=
  (groundRow outerPts innerPts r s,
    groundRow outerPts innerPts (r + 1) ((s + 1) % innerPts.length),
    groundRow outerPts innerPts r ((s + 1) % innerPts.length))

/-- First ground-cover skirt triangle at `s`:
`(top_curr, top_next, bottom_next)`; the skirt bottom shares the outer
shoreline vertex's horizontal coordinates. -/
def groundSkirtTriA (outerPts innerPts : List Pt2) (s : ℕ) : Tri2 :=
  (groundRow outerPts innerPts 0 s,
    groundRow outerPts innerPts 0 ((s + 1) % innerPts.length),
    outerPts.getD ((s + 1) % innerPts.length) default)

/-- Second ground-cover skirt triangle at `s`:
`(top_curr, bottom_next, bottom_curr)`. -/
def groundSkirtTriB (outerPts innerPts : List Pt2) (s : ℕ) : Tri2 :=
  (groundRow outerPts innerPts 0 s,
    outerPts.getD ((s + 1) % innerPts.length) default,
    outerPts.getD s default)

/-- All ground-cover band surface triangles. -/
def groundSurfTris (outerPts innerPts : List Pt2) : List Tri2 :=
  (List.range groundNumRings).bind (fun r =>
    (List.range innerPts.length).bind (fun s =>
      [groundTriA outerPts innerPts r s, groundTriB outerPts innerPts r s]))

/-- All ground-cover skirt triangles. -/
def groundSkirtTris (outerPts innerPts : List Pt2) : List Tri2 :=
  (List.range innerPts.length).bind (fun s =>
    [groundSkirtTriA outerPts innerPts s, groundSkirtTriB outerPts innerPts s])

/-- Every triangle emitted by the surface tessellation: the central surface
(fan, rings, transition, skirt) and the ground-cover band (surface and skirt).
The central surface's boundary contour and the ground-cover band's inner row
are the same `boundaryPoints` list in the source, so both take `contour`. -/
def surfaceTessellationTris (centerPoint : Pt2) (contour outerPts : List Pt2) :
    List Tri2 :=
  centralSurfaceTris centerPoint contour ++
    groundSurfTris outerPts contour ++ groundSkirtTris outerPts contour

/-- Counter-clockwise viewed from above, in the sense of an upward-pointing
face normal `(b - a) × (c - a)` (the convention under which three.js renders
the face's front toward a viewer above it). -/
def ccwFromAbove (t : Tri2) : Prop := 0 < crossY t

/-- A concrete center for the winding counterexample. -/
def cexCenter : Pt2 := ⟨0, 0⟩

/-- A concrete boundary contour (a square traversed with increasing polar
angle in the (x, z) plane, exactly how the source's contour is traversed)
for the winding counterexample. -/
def cexContour : List Pt2 := [⟨1, 0⟩, ⟨0, 1⟩, ⟨-1, 0⟩, ⟨0, -1⟩]

/-- A concrete outer shoreline row for the winding counterexample. -/
def cexOuter : List Pt2 := [⟨2, 0⟩, ⟨0, 2⟩, ⟨-2, 0⟩, ⟨0, -2⟩]

/-! ### Placement Sampler (`placeFoliageOnMesh`, `isPointInPolygon`)

The sampler walks every indexed triangle of the target mesh, rejects it when
the face normal's vertical component is below the slope threshold
`cos(maxSlope)`, when all three vertices have non-positive height, when the
centroid is outside the outer boundary polygon or inside the inner boundary
polygon; surviving faces and their areas feed a cumulative-area table.  The
instance count is `Math.floor(totalArea / 100 * grassDensity)`, capped by the
parsed max count when that is a number `≥ 0`; each instance draws a face by a
uniform sample of `[0, totalArea]` against the table and a uniform barycentric
point inside it.  `THREE.Triangle.getArea` (a floating square root) is
modelled by the abstract nonnegative area oracle `areaO`, and the three
`Math.random()` call sites of the loop by the streams `rndArea`, `rndU`,
`rndV`. -/

/-- A mesh face handed to the sampler: the three vertex positions
`vA, vB, vC` fetched from the index buffer. -/
structure Face where
  vA : Pt3
  vB : Pt3
  vC : Pt3
deriving DecidableEq, Repr

instance : Inhabited Face := ⟨⟨default, default, default⟩⟩

/-- Componentwise subtraction of 3D points. -/
def sub3 (a b : Pt3) : Pt3 := ⟨a.x - b.x, a.y - b.y, a.z - b.z⟩

/-- The 3D cross product `u × v`. -/
def cross3 (u v : Pt3) : Pt3 :=
  ⟨u.y * v.z - u.z * v.y, u.z * v.x - u.x * v.z, u.x * v.y - u.y * v.x⟩

/-- Squared euclidean norm of a 3D vector. -/
def normSq3 (p : Pt3) : ℚ := p.x ^ 2 + p.y ^ 2 + p.z ^ 2

/-- The unnormalized face normal `THREE.Triangle.getNormal` starts from:
`(c - b) × (a - b)` (which equals `(b - a) × (c - a)`); the source then
normalizes it before reading its `y` component. -/
def faceNormalRaw (f : Face) : Pt3 := cross3 (sub3 f.vC f.vB) (sub3 f.vA f.vB)

/-- The slope acceptance test `faceNormal.y ≥ slopeThreshold` on the
**normalized** face normal, written square-root-free: for a threshold
`cos(maxSlope) ∈ (0, 1]` (a slope bound below 90°), `n.y/‖n‖ ≥ c` is
equivalent to `‖n‖² > 0 ∧ n.y ≥ 0 ∧ c² · ‖n‖² ≤ n.y²`, which is exact over
the rationals. -/
def slopePass (slopeThreshold : ℚ) (f : Face) : Bool :=
  decide (0 < normSq3 (faceNormalRaw f)) && decide (0 ≤ (faceNormalRaw f).y) &&
    decide (slopeThreshold ^ 2 * normSq3 (faceNormalRaw f) ≤ (faceNormalRaw f).y ^ 2)

/-- The submersion rejection test: all three vertices at non-positive
height (`vA.y <= 0 && vB.y <= 0 && vC.y <= 0` is the rejection condition,
so this is its negation, the acceptance condition). -/
def notSubmerged (f : Face) : Bool :=
  !(decide (f.vA.y ≤ 0) && decide (f.vB.y ≤ 0) && decide (f.vC.y ≤ 0))

/-- Face centroid projected to the horizontal plane
(`centroid.copy(vA).add(vB).add(vC).divideScalar(3)`, read at `(x, z)`). -/
def centroid2 (f : Face) : Pt2 :=
  ⟨(f.vA.x + f.vB.x + f.vC.x) / 3, (f.vA.z + f.vB.z + f.vC.z) / 3⟩

/-- One edge test of the crossing-number loop of `isPointInPolygon`:
`((zi > y) !== (zj > y)) && (x < (xj - xi) * (y - zi) / (zj - zi) + xi)`.
When the first conjunct holds, `zj ≠ zi`, so the division is never by zero. -/
def pipEdge (x y : ℚ) (pi pj : Pt3) : Bool :=
  (decide (y < pi.z) != decide (y < pj.z)) &&
    decide (x < (pj.x - pi.x) * (y - pi.z) / (pj.z - pi.z) + pi.x)

/-- The crossing-number point-in-polygon test of the source, on the (x, z)
projection: each crossing toggles `isInside`, edges pair index `i` with the
previous index `j` (starting from the last vertex). -/
def isPointInPolygon (p : Pt2) (polygon : List Pt3) : Bool :=
  (List.range polygon.length).foldl
    (fun isInside i =>
      let pi := polygon.getD i default
      let pj := polygon.getD ((i + polygon.length - 1) % polygon.length) default
      if pipEdge p.x p.z pi pj then !isInside else isInside)
    false

/-- The full acceptance test of the face-filter loop, in source order:
slope, submersion, inclusion (outer boundary), exclusion (inner boundary). -/
def faceAccepted (slopeThreshold : ℚ) (outerBoundary innerBoundary : List Pt3)
    (f : Face) : Bool :=
  slopePass slopeThreshold f && notSubmerged f &&
    isPointInPolygon (centroid2 f) outerBoundary &&
    !isPointInPolygon (centroid2 f) innerBoundary

/-- The surviving faces, in mesh order (`validFaces` in the source). -/
def validFacesOf (slopeThreshold : ℚ) (outerBoundary innerBoundary : List Pt3)
    (faces : List Face) : List Face :=
  faces.filter (faceAccepted slopeThreshold outerBoundary innerBoundary)

/-- Total area of the surviving faces (`totalArea` in the source, accumulated
in the filter loop). -/
def totalValidArea (areaO : Face → ℚ) (validFaces : List Face) : ℚ :=
  (validFaces.map areaO).sum

/-- The cumulative-distribution loop:
`cumulativeArea += validFaces[i].area; cdf.push({faceIndex: i, cumulativeArea})`. -/
def cdfAux (areaO : Face → ℚ) : List Face → ℕ → ℚ → List (ℕ × ℚ)
  | [], _, _ => []
  | f :: rest, i, acc => (i, acc + areaO f) :: cdfAux areaO rest (i + 1) (acc + areaO f)

/-- The cumulative-area table (`cdf` in the source). -/
def cdfOf (areaO : Face → ℚ) (validFaces : List Face) : List (ℕ × ℚ) :=
  cdfAux areaO validFaces 0 0

/-- The instance count before the cap:
`Math.floor(totalArea / 100 * grassDensity)`. -/
def numInstancesRaw (areaTotal density : ℚ) : ℤ := ⌊areaTotal / 100 * density⌋

/-- The optional hard cap: applied only when the max-count input parsed to a
number `≥ 0` (`none` models an empty or non-numeric input). -/
def applyCap (n : ℤ) (cap : Option ℤ) : ℤ :=
  match cap with
  | some c => if 0 ≤ c then min n c else n
  | none => n

/-- One placed instance: the source face it was sampled from and the
barycentric sample point. -/
structure PlacedInstance where
  face : Face
  position : Pt3
deriving DecidableEq, Repr

/-- The per-instance loop body: draw `randomArea = Math.random() * totalArea`,
locate the first cumulative-area entry `≥ randomArea` (skipping the instance
when none is found, the `if (!foundCdf) continue`), fold the two barycentric
randoms into the unit simplex and emit the sampled point. -/
def placeInstances (areaO : Face → ℚ) (validFaces : List Face) (areaTotal : ℚ)
    (rndArea rndU rndV : ℕ → ℚ) (count : ℕ) : List PlacedInstance :=
  (List.range count).filterMap (fun i =>
    let randomArea := rndArea i * areaTotal
    match (cdfOf areaO validFaces).find? (fun e => decide (randomArea ≤ e.2)) with
    | none => none
    | some entry =>
      let f := validFaces.getD entry.1 default
      let u0 := rndU i
      let v0 := rndV i
      let u := if 1 < u0 + v0 then 1 - u0 else u0
      let v := if 1 < u0 + v0 then 1 - v0 else v0
      let w := 1 - u - v
      some ⟨f, ⟨u * f.vA.x + v * f.vB.x + w * f.vC.x,
                u * f.vA.y + v * f.vB.y + w * f.vC.y,
                u * f.vA.z + v * f.vB.z + w * f.vC.z⟩⟩)

/-- The placement pass of `placeFoliageOnMesh`: filter the faces, accumulate
the valid area, compute the (possibly capped) instance count, return early
with no geometry when the count is zero or no face survived, otherwise run
the sampling loop. -/
def placeFoliageOnMesh (faces : List Face) (slopeThreshold : ℚ)
    (outerBoundary innerBoundary : List Pt3) (areaO : Face → ℚ) (density : ℚ)
    (cap : Option ℤ) (rndArea rndU rndV : ℕ → ℚ) : List PlacedInstance :=
  let validFaces := validFacesOf slopeThreshold outerBoundary innerBoundary faces
  let areaTotal := totalValidArea areaO validFaces
  let numInstances := applyCap (numInstancesRaw areaTotal density) cap
  if numInstances = 0 ∨ validFaces = [] then []
  else placeInstances areaO validFaces areaTotal rndArea rndU rndV numInstances.toNat

/-- A concrete horizontal face at height 1 for the placement witnesses. -/
def wFace : Face := ⟨⟨0, 1, 0⟩, ⟨0, 1, 1⟩, ⟨1, 1, 0⟩⟩

/-- A concrete inclusion polygon containing the witness face's centroid. -/
def wOuter : List Pt3 := [⟨-10, 0, -10⟩, ⟨10, 0, -10⟩, ⟨0, 0, 10⟩]

/-- A concrete exclusion polygon away from the witness face's centroid. -/
def wInner : List Pt3 := [⟨5, 0, 5⟩, ⟨6, 0, 5⟩, ⟨5, 0, 6⟩]

/-! ### Hydrology Tracer: lake pre-calculation (`generateIsland`)

For each requested lake the code makes up to `maxAttempts = 100` attempts:
draw a candidate center with
`randFloat(sandAreaBox.min + lakeRadius, sandAreaBox.max - lakeRadius)` in
each axis (`randFloat(low, high) = low + random() * (high - low)`), accept it
when it lies inside the sand polygon (`isPointInPolygon`), otherwise retry;
when no attempt succeeds the lake is skipped.  An accepted lake records the
pre-depression terrain height
`baseHeight + perlin(center.x * noiseScale, center.z * noiseScale) * noiseStrength`
and the water level `height - depth + depth * 0.5`.  The radius itself is
never modified.  `Math.random()` is the stream `rnd` (two draws per attempt)
and the Perlin noise the abstract oracle `noiseO`. -/

/-- The sand-area bounding box (`THREE.Box2` expanded by every polygon
vertex's (x, z)).  The empty polygon maps to the degenerate zero box (the
source's empty box is infinite; the theorems below only concern runs whose
polygon is nonempty). -/
structure Box2 where
  minX : ℚ
  maxX : ℚ
  minZ : ℚ
  maxZ : ℚ
deriving DecidableEq, Repr

/-- Fold of `expandByPoint` over the polygon vertices. -/
def sandBox : List Pt3 → Box2
  | [] => ⟨0, 0, 0, 0⟩
  | p :: rest =>
    rest.foldl
      (fun b q => ⟨min b.minX q.x, max b.maxX q.x, min b.minZ q.z, max b.maxZ q.z⟩)
      ⟨p.x, p.x, p.z, p.z⟩

/-- `THREE.MathUtils.randFloat(low, high) = low + Math.random() * (high - low)`. -/
def randFloat (low high r : ℚ) : ℚ := low + r * (high - low)

/-- The bounded retry loop looking for a lake center: the candidate is drawn
from the radius-inset box in both axes and accepted when inside the sand
polygon.  Returns the found center (if any) together with the next unread
position of the random stream. -/
def findLakeCenter (polygon : List Pt3) (box : Box2) (lakeRadius : ℚ)
    (rnd : ℕ → ℚ) : ℕ → ℕ → Option Pt2 × ℕ
  | 0, k => (none, k)
  | attemptsLeft + 1, k =>
    let cx := randFloat (box.minX + lakeRadius) (box.maxX - lakeRadius) (rnd k)
    let cz := randFloat (box.minZ + lakeRadius) (box.maxZ - lakeRadius) (rnd (k + 1))
    if isPointInPolygon ⟨cx, cz⟩ polygon then (some ⟨cx, cz⟩, k + 2)
    else findLakeCenter polygon box lakeRadius rnd attemptsLeft (k + 2)

/-- Maximum placement attempts per lake (`maxAttempts` in the source). -/
def lakeMaxAttempts : ℕ := 100

/-- The water-feature pre-calculation loop: for each of the requested lakes,
try to place a center; on success record the lake with
`waterLevel = preDepressionHeight - depth + depth * 0.5`, on failure skip
that lake and continue. -/
def generateLakes (polygon : List Pt3) (lakeRadius lakeDepth noiseScale
    baseHeight noiseStrength : ℚ) (noiseO : ℚ → ℚ → ℚ) (rnd : ℕ → ℚ) :
    ℕ → ℕ → List Lake
  | 0, _ => []
  | n + 1, k =>
    match findLakeCenter polygon (sandBox polygon) lakeRadius rnd lakeMaxAttempts k with
    | (none, k2) =>
      generateLakes polygon lakeRadius lakeDepth noiseScale baseHeight noiseStrength
        noiseO rnd n k2
    | (some c, k2) =>
      ⟨c.x, c.z, lakeRadius, lakeDepth,
        (baseHeight + noiseO (c.x * noiseScale) (c.z * noiseScale) * noiseStrength)
          - lakeDepth + lakeDepth * (1 / 2)⟩ ::
        generateLakes polygon lakeRadius lakeDepth noiseScale baseHeight noiseStrength
          noiseO rnd n k2

/-- A concrete sand polygon (a 10 × 10 square on the ground) for the lake
counterexample and witnesses. -/
def cexSandPolygon : List Pt3 := [⟨0, 0, 0⟩, ⟨10, 0, 0⟩, ⟨10, 0, 10⟩, ⟨0, 0, 10⟩]

/-! ### Terrain vertex buffer of one generation run (`generateIsland`)

The central surface's vertex positions (one center vertex, 60 noise-and-
boundary-blended rings, the boundary contour ring, the bottom skirt ring,
all lake-depressed) and the blended planar/cylindrical UVs computed from
them.  A run's environment record carries everything a run reads: the Perlin
noise function (deterministic in the source, `ImprovedNoise` built once), the
floating-point library calls (`Math.sqrt`, `Math.atan2`, the float constant
`Math.PI`), the per-vertex normal y-components that `computeVertexNormals`
derives deterministically from the positions (abstracted because its
normalization takes square roots), and the boundary data produced by the
earlier pipeline stages.  The claim theorem states that a rerun with an
identical environment — mocked randomness and identically seeded noise —
reproduces the identical buffer. -/

/-- `THREE.MathUtils.smoothstep(x, min, max)`: clamp, then the cubic
`t² (3 - 2t)`. -/
def smoothstepQ (x low high : ℚ) : ℚ :=
  if x ≤ low then 0
  else if high ≤ x then 1
  else
    let t := (x - low) / (high - low)
    t * t * (3 - 2 * t)

/-- The lake-depression pass applied to one vertex height:
`dist = distanceTo(center); if dist < radius then y -= depth * (1 - smoothstep(dist, 0, radius))`,
folded over every lake; the floating square root of `distanceTo` is the
oracle `sqrtO` applied to the squared distance. -/
def lakeDepress (sqrtO : ℚ → ℚ) (lakes : List Lake) (px pz y0 : ℚ) : ℚ :=
  lakes.foldl
    (fun y lake =>
      let dist := sqrtO ((px - lake.centerX) ^ 2 + (pz - lake.centerZ) ^ 2)
      if dist < lake.radius then y - lake.depth * (1 - smoothstepQ dist 0 lake.radius)
      else y)
    y0

/-- Everything one generation run of the terrain buffer reads. -/
structure TerrainRun where
  noise : ℚ → ℚ → ℚ
  sqrtO : ℚ → ℚ
  atanO : ℚ → ℚ → ℚ
  normalsY : ℕ → ℚ
  piF : ℚ
  noiseScale : ℚ
  baseHeight : ℚ
  noiseStrength : ℚ
  baseRadius : ℚ
  centerPoint : Pt3
  contour : List Pt3
  lakes : List Lake

/-- One interior ring vertex: ease the radius, sample the noise height,
blend toward the interpolated contour height with `blend = ringLerp²`, and
apply the lake depression. -/
def ringVertex (run : TerrainRun) (edgePoint : Pt3) (r : ℕ) : Pt3 :=
  let ringLerp := ringLerpCentral r
  let basePointXZ := lerp2 ⟨run.centerPoint.x, run.centerPoint.z⟩
    ⟨edgePoint.x, edgePoint.z⟩ ringLerp
  let noiseVal := run.noise (basePointXZ.x * run.noiseScale) (basePointXZ.z * run.noiseScale)
  let pointY := run.baseHeight + noiseVal * run.noiseStrength
  let interpolatedContourY := lerpQ run.centerPoint.y edgePoint.y ringLerp
  let blendFactor := ringLerp ^ 2
  let finalY := lakeDepress run.sqrtO run.lakes basePointXZ.x basePointXZ.z
    (lerpQ pointY interpolatedContourY blendFactor)
  ⟨basePointXZ.x, finalY, basePointXZ.z⟩

/-- One boundary-ring vertex: the contour point with the lake depression
applied to its height. -/
def contourVertex (run : TerrainRun) (p : Pt3) : Pt3 :=
  ⟨p.x, lakeDepress run.sqrtO run.lakes p.x p.z p.y, p.z⟩

/-- The central surface's vertex positions in buffer order: center vertex,
the 60 rings (ring-major, segment-minor), the boundary contour ring, the
bottom skirt ring at height 0. -/
def centralPositions (run : TerrainRun) : List Pt3 :=
  run.centerPoint ::
    ((List.range centralNumRings).bind (fun r =>
      run.contour.map (fun edgePoint => ringVertex run edgePoint r)) ++
     run.contour.map (contourVertex run) ++
     run.contour.map (fun p => ⟨p.x, 0, p.z⟩))

/-- Texture scale of the UV projections (`TEXTURE_SCALE = 20`). -/
def TEXTURE_SCALE : ℚ := 20

/-- The blended UV of vertex `idx` at position `p`: top-down planar
projection and cylindrical projection mixed by `|normal.y|⁴`. -/
def vertexUV (run : TerrainRun) (idx : ℕ) (p : Pt3) : ℚ × ℚ :=
  let circumferenceRepeats := 2 * run.piF * run.baseRadius / TEXTURE_SCALE
  let uTop := p.x / TEXTURE_SCALE
  let vTop := p.z / TEXTURE_SCALE
  let angle := run.atanO (p.z - run.centerPoint.z) (p.x - run.centerPoint.x)
  let uSide := (angle / (2 * run.piF) + 1 / 2) * circumferenceRepeats
  let vSide := p.y / TEXTURE_SCALE
  let normalY := |run.normalsY idx|
  let topDownWeight := normalY ^ 4
  (uTop * topDownWeight + uSide * (1 - topDownWeight),
   vTop * topDownWeight + vSide * (1 - topDownWeight))

/-- The UV channel of the central surface, one entry per vertex. -/
def centralUVs (run : TerrainRun) : List (ℚ × ℚ) :=
  (centralPositions run).enum.map (fun e => vertexUV run e.1 e.2)

/-- The terrain vertex buffer of a run: positions and UVs. -/
def terrainVertexBuffer (run : TerrainRun) : List Pt3 × List (ℚ × ℚ) :=
  (centralPositions run, centralUVs run)

/-- A concrete run for the determinism witness. -/
def wRun : TerrainRun :=
  ⟨fun _ _ => 0, fun _ => 0, fun _ _ => 0, fun _ => 0, 3, 1, 1, 1, 1,
   ⟨0, 1, 0⟩, cexSandPolygon, []⟩

/-! ### Path Network Generator: Kruskal pass (`generateGraphPaths`, `UnionFind`)

The candidate edges carry a weight that is either a squared euclidean
distance or `Infinity` (an edge crossing a river); `⊤` in `WithTop ℚ` models
`Infinity`.  The list is sorted ascending by weight (`allEdges.sort((a, b) =>
a.weight - b.weight)`; for the one comparator-inconsistency, `Infinity -
Infinity = NaN`, the engine treats the result as a tie, so the sort is a
stable ascending sort with the infinite edges last — modelled by a stable
insertion sort on `weight ≤`).  The `UnionFind` class keeps a parent array
initialized to the identity; `find` follows parents to the fixpoint with
path compression (`return this.parent[i] = this.find(this.parent[i])`),
modelled by explicit state passing with fuel `n` (sufficient whenever the
parent map is a forest on `[0, n)`, which the run maintains); `union` links
`find(i)`'s root to `find(j)`'s root.  The pass skips infinite edges
entirely, adds an edge to the spanning set when its endpoints have distinct
roots, and otherwise keeps it in the `remainingEdges` pool.  The source
stores only `{u, v}` of each selected edge; the embedding keeps the whole
edge record so the selected set's total weight can be stated. -/

/-- A weighted candidate edge between node indices `u` and `v`; `⊤` is
`Infinity`. -/
structure EdgeC where
  u : ℕ
  v : ℕ
  weight : WithTop ℚ
deriving DecidableEq

/-- The ascending stable sort of the candidate edges. -/
def sortEdges (edges : List EdgeC) : List EdgeC :=
  List.insertionSort (fun a b : EdgeC => a.weight ≤ b.weight) edges

/-- `UnionFind.find` with path compression:
`find(i) { if (parent[i] === i) return i; return parent[i] = find(parent[i]); }`.
The parent array is a map `ℕ → ℕ`; the result is the root found together
with the compressed map.  `fuel` bounds the recursion depth; the Kruskal run
always calls it with fuel `n`, enough to reach the root of any forest on
`[0, n)`. -/
def ufFind (fuel : ℕ) (parent : ℕ → ℕ) (i : ℕ) : ℕ × (ℕ → ℕ) :=
  match fuel with
  | 0 => (i, parent)
  | fuel + 1 =>
    if parent i = i then (i, parent)
    else
      let res := ufFind fuel parent (parent i)
      (res.1, fun j => if j = i then res.1 else res.2 j)

/-- The state of the Kruskal pass: the union-find parent map, the selected
spanning edges (`mstEdges`) and the rejected pool (`remainingEdges`). -/
structure KState where
  parent : ℕ → ℕ
  mst : List EdgeC
  remaining : List EdgeC

/-- One iteration of the Kruskal loop: skip infinite edges; otherwise find
both roots (the compression performed inside `union`'s own `find` calls
re-reads already-compressed paths and writes no new values, so linking
`find(u)`'s root to `find(v)`'s root is the whole state change); select the
edge when the roots differ, else push it to the remaining pool. -/
def kruskalStep (n : ℕ) (st : KState) (e : EdgeC) : KState :=
  if e.weight = ⊤ then st
  else
    let fu := ufFind n st.parent e.u
    let fv := ufFind n fu.2 e.v
    if fu.1 ≠ fv.1 then
      ⟨fun k => if k = fu.1 then fv.1 else fv.2 k, st.mst ++ [e], st.remaining⟩
    else ⟨fv.2, st.mst, st.remaining ++ [e]⟩

/-- The whole Kruskal pass over `n` nodes: sort ascending, start from the
identity parent map, fold the loop. -/
def kruskalRun (n : ℕ) (edges : List EdgeC) : KState :=
  (sortEdges edges).foldl (kruskalStep n) ⟨fun i => i, [], []⟩

/-- One-step reachability along the candidate edges: `a` and `b` are the two
endpoints of some listed edge. -/
def EdgeStep (E : List EdgeC) (a b : ℕ) : Prop :=
  ∃ e ∈ E, (e.u = a ∧ e.v = b) ∨ (e.u = b ∧ e.v = a)

/-- Connectivity via the candidate edges: the reflexive-transitive closure
of `EdgeStep`. -/
def Conn (E : List EdgeC) : ℕ → ℕ → Prop := Relation.ReflTransGen (EdgeStep E)

/-- An edge list is acyclic when every edge is a bridge: no edge's endpoints
stay connected after removing that one occurrence. -/
def AcyclicEdges (M : List EdgeC) : Prop :=
  ∀ (l1 : List EdgeC) (e : EdgeC) (l2 : List EdgeC),
    M = l1 ++ e :: l2 → ¬ Conn (l1 ++ l2) e.u e.v

/-- Total weight of an edge list. -/
def weightSum (E : List EdgeC) : WithTop ℚ := (E.map EdgeC.weight).sum

/-! ### Specification-side notions for the union-find and Kruskal proofs

`PStep`/`RootOf`/`UFSame` describe the parent map's forest structure;
`ChainL` records an explicit parent chain; the `mergeStep` fold is the
abstract partition model used to count how many edges of a list merge two
distinct classes (the rank of the generated connectivity). -/

/-- One proper step along parent pointers. -/
def PStep (parent : ℕ → ℕ) (a b : ℕ) : Prop := parent a = b ∧ a ≠ b

/-- `r` is `i`'s root: reachable along parent pointers and a fixpoint. -/
def RootOf (parent : ℕ → ℕ) (i r : ℕ) : Prop :=
  Relation.ReflTransGen (PStep parent) i r ∧ parent r = r

/-- Two nodes share a union-find class: they have a common root. -/
def UFSame (parent : ℕ → ℕ) (a b : ℕ) : Prop :=
  ∃ r, RootOf parent a r ∧ RootOf parent b r

/-- The explicit list of proper chain nodes from `i` (inclusive) to its root
`r` (exclusive). -/
def ChainL (parent : ℕ → ℕ) : List ℕ → ℕ → ℕ → Prop
  | [], i, r => i = r ∧ parent r = r
  | a :: l, i, r => a = i ∧ parent i ≠ i ∧ ChainL parent l (parent i) r

/-- The parent map moves each node to a parent only by pointer jumps toward
its own root (how path compression rewrites the map). -/
def Jumps (parent parent2 : ℕ → ℕ) : Prop :=
  ∀ j, parent2 j = parent j ∨ (∃ r, RootOf parent j r ∧ parent2 j = r)

/-- The well-formedness of the union-find state over `n` nodes: the map is
the identity outside `[0, n)`, maps `[0, n)` into itself, and every node has
a root. -/
def UFInv (n : ℕ) (parent : ℕ → ℕ) : Prop :=
  (∀ i, ¬ i < n → parent i = i) ∧ (∀ i, i < n → parent i < n) ∧
    (∀ i, ∃ r, RootOf parent i r)

/-- One step of the abstract partition fold: an edge whose endpoints sit in
distinct classes of the labelling relabels one class onto the other and
counts one merge; an edge inside a class changes nothing. -/
def mergeStep (p : (ℕ → ℕ) × ℕ) (e : EdgeC) : (ℕ → ℕ) × ℕ :=
  if p.1 e.u = p.1 e.v then p
  else (fun x => if p.1 x = p.1 e.u then p.1 e.v else p.1 x, p.2 + 1)

/-- Folding the abstract partition over an edge list. -/
def mergeRun (ρ : ℕ → ℕ) (E : List EdgeC) : (ℕ → ℕ) × ℕ := E.foldl mergeStep (ρ, 0)

/-- The number of class-merging edges of `E` over the starting labelling
`ρ` — the rank of the connectivity `E` adds on top of `ρ`. -/
def mergeCount (ρ : ℕ → ℕ) (E : List EdgeC) : ℕ := (mergeRun ρ E).2

/-- The parent-map update performed by `union`: the root `ru` is re-pointed
at the root `rv` (`parent[ri] = rj`). -/
def unionAt (ρ : ℕ → ℕ) (ru rv : ℕ) : ℕ → ℕ := fun k => if k = ru then rv else ρ k

/-- The weight order on candidate edges used by the sort. -/
def wle (a b : EdgeC) : Prop := a.weight ≤ b.weight

/-- The running invariant of the Kruskal fold after the `processed` prefix of
the sorted edge list: the union-find state is well formed; its classes are
exactly the connectivity of the selected edges; the selection is an acyclic
in-order sublist of the processed prefix with no infinite edge; and every
processed finite edge is already connected by selected edges of no larger
weight. -/
def KInv (n : ℕ) (processed : List EdgeC) (st : KState) : Prop :=
  UFInv n st.parent ∧
  (∀ x y, UFSame st.parent x y ↔ Conn st.mst x y) ∧
  AcyclicEdges st.mst ∧
  List.Sublist st.mst processed ∧
  (∀ e ∈ st.mst, e.weight ≠ ⊤) ∧
  (∀ f ∈ processed, f.weight ≠ ⊤ →
    Conn (st.mst.filter (fun k => decide (k.weight ≤ f.weight))) f.u f.v)

/-! ## Theorems -/

/-- Helper: a `filterMap` whose function succeeds on every element of the
list preserves its length. -/
theorem length_filterMap_all_some {α β : Type} (f : α → Option β) :
    ∀ l : List α, (∀ a ∈ l, (f a).isSome = true) → (l.filterMap f).length = l.length := by
  intro l
  induction l with
  | nil => intro _; rfl
  | cons a rest ih =>
    intro h
    obtain ⟨b, hb⟩ := Option.isSome_iff_exists.mp (h a (List.mem_cons_self a rest))
    simp [List.filterMap_cons, hb, ih (fun x hx => h x (List.mem_cons_of_mem a hx))]

/-- Helper: every face index recorded in the cumulative-area table is below
the running index plus the number of remaining faces. -/
theorem cdfAux_fst_lt (areaO : Face → ℚ) :
    ∀ (l : List Face) (i : ℕ) (acc : ℚ), ∀ e ∈ cdfAux areaO l i acc, e.1 < i + l.length := by
  intro l
  induction l with
  | nil =>
    intro i acc e he
    simp [cdfAux] at he
  | cons f rest ih =>
    intro i acc e he
    rw [cdfAux] at he
    rcases List.mem_cons.mp he with rfl | hrest
    · simp
    · have := ih (i + 1) (acc + areaO f) e hrest
      simp only [List.length_cons]
      omega

/-- Helper: a nonempty cumulative-area table has an entry whose cumulative
value is the starting accumulator plus the total area of the faces. -/
theorem cdfAux_exists_total (areaO : Face → ℚ) :
    ∀ (l : List Face) (i : ℕ) (acc : ℚ), l ≠ [] →
      ∃ e ∈ cdfAux areaO l i acc, e.2 = acc + (l.map areaO).sum := by
  intro l
  induction l with
  | nil => intro i acc h; exact absurd rfl h
  | cons f rest ih =>
    intro i acc h
    by_cases hr : rest = []
    · subst hr
      exact ⟨(i, acc + areaO f), List.mem_cons_self _ _, by simp⟩
    · obtain ⟨e, hm, hs⟩ := ih (i + 1) (acc + areaO f) hr
      refine ⟨e, ?_, by rw [hs]; simp [List.map_cons]; ring⟩
      rw [cdfAux]
      exact List.mem_cons_of_mem _ hm

instance (t : Tri2) : Decidable (ccwFromAbove t) :=
  inferInstanceAs (Decidable (0 < crossY t))

/-- Helper: the center-fan triangle of any segment is among the emitted
triangles. -/
theorem fanTri_mem_surface (centerPoint : Pt2) (contour outerPts : List Pt2)
    (s : ℕ) (hs : s < contour.length) :
    fanTriAt centerPoint contour s ∈
      surfaceTessellationTris centerPoint contour outerPts := by
  have h1 : fanTriAt centerPoint contour s ∈ centralFanTris centerPoint contour :=
    List.mem_map_of_mem _ (List.mem_range.mpr hs)
  simp only [surfaceTessellationTris, centralSurfaceTris, List.mem_append]
  tauto

/-- Helper: the first innermost-ring triangle of any segment is among the
emitted triangles. -/
theorem ringTriA_mem_surface (centerPoint : Pt2) (contour outerPts : List Pt2)
    (s : ℕ) (hs : s < contour.length) :
    ringTriA centerPoint contour 0 s ∈
      surfaceTessellationTris centerPoint contour outerPts := by
  have h1 : ringTriA centerPoint contour 0 s ∈ centralRingTris centerPoint contour := by
    unfold centralRingTris
    exact List.mem_bind.mpr ⟨0, List.mem_range.mpr (by norm_num [centralNumRings]),
      List.mem_bind.mpr ⟨s, List.mem_range.mpr hs, List.mem_cons_self _ _⟩⟩
  simp only [surfaceTessellationTris, centralSurfaceTris, List.mem_append]
  tauto

/-- Helper: the concrete value of the innermost ring easing. -/
theorem ringLerpCentral_zero : ringLerpCentral 0 = 121 / 3721 := by
  norm_num [ringLerpCentral, centralNumRings]

/-- Helper: the concrete value of the second ring easing. -/
theorem ringLerpCentral_one : ringLerpCentral 1 = 240 / 3721 := by
  norm_num [ringLerpCentral, centralNumRings]

/-- C1 counterexample: at a concrete boundary contour (a square traversed the
same way around the center as the generated contours), the emitted triangle
set mixes both winding signs — the first center-fan triangle has negative
face-normal y-component while the first ring triangle has a positive one —
so the triangles are not all counter-clockwise viewed from above under either
sign convention. -/
theorem surface_winding_counterexample :
    ¬ (∀ t ∈ surfaceTessellationTris cexCenter cexContour cexOuter, ccwFromAbove t) ∧
      ¬ (∀ t ∈ surfaceTessellationTris cexCenter cexContour cexOuter, crossY t < 0) := by
  have hlen : (0 : ℕ) < cexContour.length := by norm_num [cexContour]
  have hfan : crossY (fanTriAt cexCenter cexContour 0) = -(14641 / 13845841) := by
    norm_num [fanTriAt, crossY, gridXZ, contourAt, lerp2, cross2, sub2,
      ringLerpCentral, centralNumRings, cexCenter, cexContour]
  have hring : crossY (ringTriA cexCenter cexContour 0 0) = 14399 / 13845841 := by
    norm_num [ringTriA, crossY, gridXZ, contourAt, lerp2, cross2, sub2,
      ringLerpCentral, centralNumRings, cexCenter, cexContour]
  constructor
  · intro h
    have hv := h _ (fanTri_mem_surface cexCenter cexContour cexOuter 0 hlen)
    rw [ccwFromAbove, hfan] at hv
    norm_num at hv
  · intro h
    have hv := h _ (ringTriA_mem_surface cexCenter cexContour cexOuter 0 hlen)
    rw [hring] at hv
    norm_num at hv

/-- C1 amended: the emitted triangles do not share a single
viewed-from-above winding.  For every boundary contour and every segment
`s`, the center-fan triangle and the first ring triangle of that segment are
both emitted, and the product of their face-normal y-components is `≤ 0`
(strictly negative whenever the local boundary cross product is nonzero), so
the fan winds opposite to the rings; moreover every skirt-wall triangle of
the central surface and of the ground-cover band projects to zero area from
above (its winding is degenerate rather than counter-clockwise). -/
theorem surface_winding_amended (centerPoint : Pt2) (contour outerPts : List Pt2)
    (s : ℕ) (hs : s < contour.length) :
    fanTriAt centerPoint contour s ∈ surfaceTessellationTris centerPoint contour outerPts ∧
      ringTriA centerPoint contour 0 s ∈
        surfaceTessellationTris centerPoint contour outerPts ∧
      crossY (fanTriAt centerPoint contour s) *
        crossY (ringTriA centerPoint contour 0 s) ≤ 0 ∧
      (∀ t ∈ centralSkirtTris contour, crossY t = 0) ∧
      (∀ t ∈ groundSkirtTris outerPts contour, crossY t = 0) := by
  refine ⟨fanTri_mem_surface centerPoint contour outerPts s hs,
    ringTriA_mem_surface centerPoint contour outerPts s hs, ?_, ?_, ?_⟩
  · have hfan : crossY (fanTriAt centerPoint contour s) =
        ringLerpCentral 0 ^ 2 *
          cross2 (sub2 (contourAt contour s) centerPoint)
            (sub2 (contourAt contour ((s + 1) % contour.length)) centerPoint) := by
      simp only [fanTriAt, crossY, gridXZ, lerp2, cross2, sub2]
      ring
    have hring : crossY (ringTriA centerPoint contour 0 s) =
        ringLerpCentral 0 * (ringLerpCentral 0 - ringLerpCentral 1) *
          cross2 (sub2 (contourAt contour s) centerPoint)
            (sub2 (contourAt contour ((s + 1) % contour.length)) centerPoint) := by
      simp only [ringTriA, crossY, gridXZ, lerp2, cross2, sub2]
      ring
    rw [hfan, hring, ringLerpCentral_zero, ringLerpCentral_one]
    nlinarith [sq_nonneg (cross2 (sub2 (contourAt contour s) centerPoint)
      (sub2 (contourAt contour ((s + 1) % contour.length)) centerPoint))]
  · intro t ht
    obtain ⟨s', _, hmem⟩ := List.mem_bind.mp ht
    rcases List.mem_cons.mp hmem with rfl | hmem2
    · simp only [skirtTriA, crossY, cross2, sub2]; ring
    · rcases List.mem_cons.mp hmem2 with rfl | habs
      · simp only [skirtTriB, crossY, cross2, sub2]; ring
      · exact absurd habs (List.not_mem_nil _)
  · intro t ht
    obtain ⟨s', _, hmem⟩ := List.mem_bind.mp ht
    rcases List.mem_cons.mp hmem with rfl | hmem2
    · simp only [groundSkirtTriA, groundRow, crossY, cross2, sub2, lerp2,
        Nat.cast_zero]
      ring
    · rcases List.mem_cons.mp hmem2 with rfl | habs
      · simp only [groundSkirtTriB, groundRow, crossY, cross2, sub2, lerp2,
          Nat.cast_zero]
        ring
      · exact absurd habs (List.not_mem_nil _)

/-- Witness for the amended C1 theorem at the concrete square contour. -/
theorem surface_winding_amended_witness :
    crossY (fanTriAt cexCenter cexContour 0) * crossY (ringTriA cexCenter cexContour 0 0) ≤ 0 :=
  (surface_winding_amended cexCenter cexContour cexOuter 0 (by decide)).2.2.1

/-- C6: for every base radius `R` and shoreline offset, both rock rings are
sized by the same density coefficient `k`: the inner ring has
`max(3, round(k * R))` points and the outer ring `max(3, round(k * (R + offset)))`
points; at `R = 20` the inner ring has exactly 75 points. -/
theorem ring_counts_density_law :
    ∃ k : ℚ, (∀ R : ℚ, numLargeRocks R = max 3 (jsRound (k * R))) ∧
      (∀ R offset : ℚ, numSmallRocks R offset = max 3 (jsRound (k * (R + offset)))) ∧
      numLargeRocks 20 = 75 := by
  refine ⟨densityCoefficient, fun R => by simp [numLargeRocks, DENSITY_SCALE_POWER],
    fun R offset => by simp [numSmallRocks, outerRadius, DENSITY_SCALE_POWER], ?_⟩
  norm_num [numLargeRocks, jsRound, densityCoefficient, DENSITY_BASE_ROCKS,
    DENSITY_BASE_RADIUS, DENSITY_SCALE_POWER]

/-- C8: every value produced by `generateNoise` lies within `[-1.05, 1.05]`:
the four harmonic amplitudes are `1, 0.5, 0.25, 0.125`, the summed signal is
divided by the total amplitude `1.875`, and any sine oracle bounded by 1 in
absolute value keeps the output in the band. -/
theorem generateNoise_bounded (s : ℕ → ℕ → ℚ) (hs : ∀ h i, |s h i| ≤ 1) (i : ℕ) :
    totalAmplitude = 1.875 ∧ (harmonics.map Prod.snd) = [1, 0.5, 0.25, 0.125] ∧
      -1.05 ≤ generateNoiseVal s i ∧ generateNoiseVal s i ≤ 1.05 := by
  have htot : totalAmplitude = 15 / 8 := by norm_num [totalAmplitude, harmonics]
  have h0 := abs_le.mp (hs 0 i)
  have h1 := abs_le.mp (hs 1 i)
  have h2 := abs_le.mp (hs 2 i)
  have h3 := abs_le.mp (hs 3 i)
  have hval : generateNoiseVal s i =
      (s 0 i * 1 + s 1 i * (1/2) + s 2 i * (1/4) + s 3 i * (1/8)) / (15/8) := by
    simp only [generateNoiseVal, harmonics, htot, List.length_cons, List.length_nil,
      List.range_succ, List.range_zero, List.map_append, List.map_cons, List.map_nil,
      List.foldl_append, List.foldl_cons, List.foldl_nil, List.getD_cons_succ,
      List.getD_cons_zero]
    ring
  refine ⟨by rw [htot]; norm_num, by norm_num [harmonics], ?_, ?_⟩
  · rw [hval, le_div_iff₀ (by norm_num : (0:ℚ) < 15 / 8)]
    linarith [h0.1, h1.1, h2.1, h3.1]
  · rw [hval, div_le_iff₀ (by norm_num : (0:ℚ) < 15 / 8)]
    linarith [h0.2, h1.2, h2.2, h3.2]

/-- Witness for C8 at the constant-zero sine oracle and index 0. -/
theorem generateNoise_bounded_witness :
    -1.05 ≤ generateNoiseVal (fun _ _ => 0) 0 ∧ generateNoiseVal (fun _ _ => 0) 0 ≤ 1.05 :=
  ⟨(generateNoise_bounded (fun _ _ => 0) (fun _ _ => by norm_num) 0).2.2.1,
   (generateNoise_bounded (fun _ _ => 0) (fun _ _ => by norm_num) 0).2.2.2⟩

/-- Helper for C10: from any current point, the chain of points the descent
loop appends is strictly decreasing in height, starting strictly below the
current point. -/
theorem traceRiverFrom_chain (samples : ℕ → Pt3 → List Pt3) (lakes : List Lake) :
    ∀ (fuel i : ℕ) (cur : Pt3),
      List.Chain (fun a b : Pt3 => b.y < a.y) cur
        (traceRiverFrom samples lakes fuel i cur) := by
  intro fuel
  induction fuel with
  | zero => intro i cur; exact List.Chain.nil
  | succ fuel ih =>
    intro i cur
    rw [traceRiverFrom]
    cases h : sortByY (samples i cur) with
    | nil => exact List.Chain.nil
    | cons next rest =>
      by_cases hy : cur.y ≤ next.y
      · simp only [hy, if_true]
        exact List.Chain.nil
      · simp only [hy, if_false]
        by_cases hl : inLakeBelowWater next lakes
        · simp only [hl, if_true]
          exact List.Chain.cons (lt_of_not_le hy) List.Chain.nil
        · simp only [hl, if_false]
          exact List.Chain.cons (lt_of_not_le hy) (ih (i + 1) next)

/-- Helper: the placement pass with its local bindings flattened. -/
theorem placeFoliageOnMesh_eq (faces : List Face) (slopeThreshold : ℚ)
    (outerBoundary innerBoundary : List Pt3) (areaO : Face → ℚ) (density : ℚ)
    (cap : Option ℤ) (rndArea rndU rndV : ℕ → ℚ) :
    placeFoliageOnMesh faces slopeThreshold outerBoundary innerBoundary areaO
        density cap rndArea rndU rndV =
      if applyCap (numInstancesRaw (totalValidArea areaO (validFacesOf slopeThreshold
            outerBoundary innerBoundary faces)) density) cap = 0 ∨
          validFacesOf slopeThreshold outerBoundary innerBoundary faces = [] then []
      else
        placeInstances areaO (validFacesOf slopeThreshold outerBoundary innerBoundary faces)
          (totalValidArea areaO (validFacesOf slopeThreshold outerBoundary innerBoundary faces))
          rndArea rndU rndV
          (applyCap (numInstancesRaw (totalValidArea areaO (validFacesOf slopeThreshold
            outerBoundary innerBoundary faces)) density) cap).toNat := rfl

/-- C4: the number of placed foliage instances is exactly
`min(floor(totalValidArea/100 * density), cap)` when a valid (nonnegative)
cap is configured and `floor(totalValidArea/100 * density)` otherwise, for
any nonnegative density, any nonnegative area oracle and any sampling stream
in `[0, 1)`; with `density = 0` the result is empty (no geometry emitted). -/
theorem foliage_instance_count (faces : List Face) (slopeThreshold : ℚ)
    (outerBoundary innerBoundary : List Pt3) (areaO : Face → ℚ) (density : ℚ)
    (cap : Option ℤ) (rndArea rndU rndV : ℕ → ℚ)
    (hdens : 0 ≤ density) (harea : ∀ f, 0 ≤ areaO f)
    (hrnd : ∀ i, 0 ≤ rndArea i ∧ rndArea i < 1) :
    ((placeFoliageOnMesh faces slopeThreshold outerBoundary innerBoundary areaO
        density cap rndArea rndU rndV).length : ℤ) =
      (match cap with
       | some c =>
          if 0 ≤ c then
            min ⌊totalValidArea areaO (validFacesOf slopeThreshold outerBoundary
              innerBoundary faces) / 100 * density⌋ c
          else ⌊totalValidArea areaO (validFacesOf slopeThreshold outerBoundary
              innerBoundary faces) / 100 * density⌋
       | none => ⌊totalValidArea areaO (validFacesOf slopeThreshold outerBoundary
          innerBoundary faces) / 100 * density⌋) ∧
    (density = 0 → placeFoliageOnMesh faces slopeThreshold outerBoundary
      innerBoundary areaO density cap rndArea rndU rndV = []) := by
  set validFaces := validFacesOf slopeThreshold outerBoundary innerBoundary faces with hvf
  set A := totalValidArea areaO validFaces with hAdef
  have hA0 : 0 ≤ A := by
    rw [hAdef]
    apply List.sum_nonneg
    intro x hx
    obtain ⟨f, _, rfl⟩ := List.mem_map.mp hx
    exact harea f
  have hcap : (match cap with
       | some c => if 0 ≤ c then min ⌊A / 100 * density⌋ c else ⌊A / 100 * density⌋
       | none => ⌊A / 100 * density⌋) = applyCap (numInstancesRaw A density) cap := by
    cases cap <;> simp [applyCap, numInstancesRaw]
  rw [hcap]
  set N := applyCap (numInstancesRaw A density) cap with hNdef
  have hraw0 : 0 ≤ numInstancesRaw A density := by
    apply Int.floor_nonneg.mpr
    have : (0:ℚ) ≤ A / 100 := by positivity
    exact mul_nonneg this hdens
  have hN0 : 0 ≤ N := by
    rw [hNdef]
    cases cap with
    | none => exact hraw0
    | some c =>
      simp only [applyCap]
      split
      · exact le_min hraw0 (by assumption)
      · exact hraw0
  have hNle : N ≤ numInstancesRaw A density := by
    rw [hNdef]
    cases cap with
    | none => exact le_refl _
    | some c =>
      simp only [applyCap]
      split
      · exact min_le_left _ _
      · exact le_refl _
  constructor
  · rw [placeFoliageOnMesh_eq, ← hvf, ← hAdef, ← hNdef]
    by_cases hz : N = 0 ∨ validFaces = []
    · rw [if_pos hz]
      rcases hz with hz | hz
      · simp [hz]
      · have hA' : A = 0 := by rw [hAdef, hz]; rfl
        have hraw' : numInstancesRaw A density = 0 := by
          rw [hA']
          simp [numInstancesRaw]
        have : N = 0 := by
          rw [hNdef, hraw']
          cases cap with
          | none => rfl
          | some c =>
            simp only [applyCap]
            split
            · exact min_eq_left (by assumption)
            · rfl
        simp [this]
    · rw [if_neg hz]
      push_neg at hz
      have hNpos : 0 < N := lt_of_le_of_ne hN0 (Ne.symm hz.1)
      have hApos : 0 < A := by
        rcases lt_or_eq_of_le hA0 with h | h
        · exact h
        · exfalso
          have hraw' : numInstancesRaw A density = 0 := by
            rw [← h]
            simp [numInstancesRaw]
          omega
      have hfind : ∀ i : ℕ,
          ((cdfOf areaO validFaces).find?
            (fun e => decide (rndArea i * A ≤ e.2))).isSome = true := by
        intro i
        obtain ⟨e, he, hesum⟩ := cdfAux_exists_total areaO validFaces 0 0 hz.2
        rw [zero_add] at hesum
        have hsumA : (validFaces.map areaO).sum = A := by rw [hAdef]; rfl
        rw [hsumA] at hesum
        rw [List.find?_isSome]
        refine ⟨e, he, ?_⟩
        rw [hesum]
        have h1 : rndArea i * A ≤ 1 * A :=
          mul_le_mul_of_nonneg_right (le_of_lt (hrnd i).2) hA0
        simpa using h1
      unfold placeInstances
      rw [length_filterMap_all_some]
      · rw [List.length_range]
        exact Int.toNat_of_nonneg hN0
      · intro i _
        obtain ⟨entry, hentry⟩ := Option.isSome_iff_exists.mp (hfind i)
        simp only [hentry]
        rfl
  · intro hd
    rw [placeFoliageOnMesh_eq, ← hvf, ← hAdef, ← hNdef, if_pos]
    left
    rw [hNdef]
    have hraw' : numInstancesRaw A density = 0 := by
      rw [hd]
      simp [numInstancesRaw]
    rw [hraw']
    cases cap with
    | none => rfl
    | some c =>
      simp only [applyCap]
      split
      · exact min_eq_left (by assumption)
      · rfl

/-- Witness for C4 at an empty mesh with no cap: no instance is placed and
the formula evaluates to the floor term. -/
theorem foliage_instance_count_witness :
    ((placeFoliageOnMesh [] 0 [] [] (fun _ => 0) 0 none (fun _ => 0) (fun _ => 0)
        (fun _ => 0)).length : ℤ) =
      ⌊totalValidArea (fun _ => 0) (validFacesOf 0 [] [] []) / 100 * 0⌋ :=
  (foliage_instance_count [] 0 [] [] (fun _ => 0) 0 none (fun _ => 0) (fun _ => 0)
    (fun _ => 0) (le_refl 0) (fun _ => le_refl 0)
    (fun _ => ⟨le_refl 0, by norm_num⟩)).1

/-- C5: every instance emitted by the placement sampler was sampled from a
triangle passing all four acceptance tests: the slope test against the
threshold `cos(maxSlope)`, the not-all-submerged test, centroid inside the
inclusion (outer) polygon, and centroid outside the exclusion (inner)
polygon — for any inputs and any random streams. -/
theorem foliage_instances_pass_tests (faces : List Face) (slopeThreshold : ℚ)
    (outerBoundary innerBoundary : List Pt3) (areaO : Face → ℚ) (density : ℚ)
    (cap : Option ℤ) (rndArea rndU rndV : ℕ → ℚ) :
    ∀ inst ∈ placeFoliageOnMesh faces slopeThreshold outerBoundary innerBoundary
        areaO density cap rndArea rndU rndV,
      slopePass slopeThreshold inst.face = true ∧
        notSubmerged inst.face = true ∧
        isPointInPolygon (centroid2 inst.face) outerBoundary = true ∧
        isPointInPolygon (centroid2 inst.face) innerBoundary = false := by
  intro inst hmem
  rw [placeFoliageOnMesh_eq] at hmem
  by_cases hz : applyCap (numInstancesRaw (totalValidArea areaO (validFacesOf slopeThreshold
      outerBoundary innerBoundary faces)) density) cap = 0 ∨
      validFacesOf slopeThreshold outerBoundary innerBoundary faces = []
  · rw [if_pos hz] at hmem
    exact absurd hmem (List.not_mem_nil inst)
  · rw [if_neg hz] at hmem
    unfold placeInstances at hmem
    obtain ⟨i, _, hbody⟩ := List.mem_filterMap.mp hmem
    simp only at hbody
    set validFaces := validFacesOf slopeThreshold outerBoundary innerBoundary faces with hvf
    cases hfind : (cdfOf areaO validFaces).find?
        (fun e => decide (rndArea i * totalValidArea areaO validFaces ≤ e.2)) with
    | none =>
      rw [hfind] at hbody
      exact absurd hbody (by simp)
    | some entry =>
      rw [hfind] at hbody
      obtain ⟨fc, pos⟩ := inst
      simp only [Option.some.injEq, PlacedInstance.mk.injEq] at hbody
      have hface : fc = validFaces.getD entry.1 default := hbody.1.symm
      have hentry : entry ∈ cdfOf areaO validFaces := List.mem_of_find?_eq_some hfind
      have hlt : entry.1 < validFaces.length := by
        have := cdfAux_fst_lt areaO validFaces 0 0 entry hentry
        omega
      have hfacemem : validFaces.getD entry.1 default ∈ validFaces := by
        rw [List.getD_eq_getElem validFaces default hlt]
        exact List.getElem_mem hlt
      have hacc : faceAccepted slopeThreshold outerBoundary innerBoundary
          (validFaces.getD entry.1 default) = true := by
        rw [hvf] at hfacemem
        exact List.of_mem_filter hfacemem
      show slopePass slopeThreshold fc = true ∧ notSubmerged fc = true ∧
        isPointInPolygon (centroid2 fc) outerBoundary = true ∧
        isPointInPolygon (centroid2 fc) innerBoundary = false
      rw [hface]
      simp only [faceAccepted, Bool.and_eq_true, Bool.not_eq_true'] at hacc
      exact ⟨hacc.1.1.1, hacc.1.1.2, hacc.1.2, hacc.2⟩

/-- Witness for C5: a concrete run placing one instance on a single
horizontal face; the theorem yields the four acceptance facts for the
sampled face. -/
theorem foliage_instances_pass_tests_witness :
    slopePass (1/2) wFace = true ∧ notSubmerged wFace = true ∧
      isPointInPolygon (centroid2 wFace) wOuter = true ∧
      isPointInPolygon (centroid2 wFace) wInner = false :=
  foliage_instances_pass_tests [wFace] (1/2) wOuter wInner (fun _ => 100) 1 none
    (fun _ => 0) (fun _ => 0) (fun _ => 0) ⟨wFace, ⟨1, 1, 0⟩⟩ (by
      rw [placeFoliageOnMesh_eq]
      norm_num [validFacesOf, faceAccepted, slopePass, notSubmerged, isPointInPolygon,
        pipEdge, centroid2, faceNormalRaw, cross3, sub3, normSq3, totalValidArea,
        numInstancesRaw, applyCap, cdfOf, cdfAux, placeInstances, wFace, wOuter, wInner,
        List.filter, List.filterMap, List.range_succ, List.foldl])

/-- Helper: a successful lake-center search returns a point accepted by the
polygon test whose coordinates were drawn from the radius-inset box (given a
random stream in `[0, 1]` and an inset box that is a nonempty interval in
both axes). -/
theorem findLakeCenter_spec (polygon : List Pt3) (box : Box2) (lakeRadius : ℚ)
    (rnd : ℕ → ℚ) (hrnd : ∀ i, 0 ≤ rnd i ∧ rnd i ≤ 1)
    (hfitX : box.minX + lakeRadius ≤ box.maxX - lakeRadius)
    (hfitZ : box.minZ + lakeRadius ≤ box.maxZ - lakeRadius) :
    ∀ (fuel k : ℕ) (c : Pt2) (k2 : ℕ),
      findLakeCenter polygon box lakeRadius rnd fuel k = (some c, k2) →
        isPointInPolygon c polygon = true ∧
          box.minX + lakeRadius ≤ c.x ∧ c.x ≤ box.maxX - lakeRadius ∧
          box.minZ + lakeRadius ≤ c.z ∧ c.z ≤ box.maxZ - lakeRadius := by
  intro fuel
  induction fuel with
  | zero =>
    intro k c k2 h
    rw [findLakeCenter] at h
    exact absurd (congrArg Prod.fst h) (by simp)
  | succ fuel ih =>
    intro k c k2 h
    rw [findLakeCenter] at h
    by_cases hpip : isPointInPolygon
        ⟨randFloat (box.minX + lakeRadius) (box.maxX - lakeRadius) (rnd k),
         randFloat (box.minZ + lakeRadius) (box.maxZ - lakeRadius) (rnd (k + 1))⟩
        polygon = true
    · rw [if_pos hpip] at h
      have hc : c = ⟨randFloat (box.minX + lakeRadius) (box.maxX - lakeRadius) (rnd k),
          randFloat (box.minZ + lakeRadius) (box.maxZ - lakeRadius) (rnd (k + 1))⟩ := by
        have := congrArg Prod.fst h
        simpa using this.symm
      subst hc
      refine ⟨hpip, ?_, ?_, ?_, ?_⟩ <;>
        simp only [randFloat] <;>
        nlinarith [(hrnd k).1, (hrnd k).2, (hrnd (k + 1)).1, (hrnd (k + 1)).2]
    · rw [if_neg hpip] at h
      exact ih (k + 2) c k2 (by simpa using h)

/-- Helper: one unfolding step of the lake loop. -/
theorem generateLakes_succ (polygon : List Pt3)
    (lakeRadius lakeDepth noiseScale baseHeight noiseStrength : ℚ)
    (noiseO : ℚ → ℚ → ℚ) (rnd : ℕ → ℚ) (n k : ℕ) :
    generateLakes polygon lakeRadius lakeDepth noiseScale baseHeight noiseStrength
        noiseO rnd (n + 1) k =
      (match findLakeCenter polygon (sandBox polygon) lakeRadius rnd lakeMaxAttempts k with
       | (none, k2) =>
          generateLakes polygon lakeRadius lakeDepth noiseScale baseHeight noiseStrength
            noiseO rnd n k2
       | (some c, k2) =>
          ⟨c.x, c.z, lakeRadius, lakeDepth,
            (baseHeight + noiseO (c.x * noiseScale) (c.z * noiseScale) * noiseStrength)
              - lakeDepth + lakeDepth * (1 / 2)⟩ ::
            generateLakes polygon lakeRadius lakeDepth noiseScale baseHeight noiseStrength
              noiseO rnd n k2) := rfl

/-- Helper: one unfolding step of the lake loop when the center search
succeeds. -/
theorem generateLakes_succ_found (polygon : List Pt3)
    (lakeRadius lakeDepth noiseScale baseHeight noiseStrength : ℚ)
    (noiseO : ℚ → ℚ → ℚ) (rnd : ℕ → ℚ) (n k : ℕ) (c : Pt2) (k2 : ℕ)
    (hfind : findLakeCenter polygon (sandBox polygon) lakeRadius rnd
      lakeMaxAttempts k = (some c, k2)) :
    generateLakes polygon lakeRadius lakeDepth noiseScale baseHeight noiseStrength
        noiseO rnd (n + 1) k =
      ⟨c.x, c.z, lakeRadius, lakeDepth,
        (baseHeight + noiseO (c.x * noiseScale) (c.z * noiseScale) * noiseStrength)
          - lakeDepth + lakeDepth * (1 / 2)⟩ ::
        generateLakes polygon lakeRadius lakeDepth noiseScale baseHeight noiseStrength
          noiseO rnd n k2 := by
  rw [generateLakes_succ, hfind]

/-- C7 counterexample: the radius is not clamped, and the recorded lake can
sample outside the generation's bounding box.  Concretely, on a 10 × 10 sand
square with `lakeRadius = 8` and `Math.random` mocked at `1/2`, a lake is
recorded at center `(5, 5)` (inside the polygon), yet its sampling disk of
radius 8 extends below the bounding box's minimum in both axes. -/
theorem lake_box_counterexample :
    generateLakes cexSandPolygon 8 1 1 0 1 (fun _ _ => 0) (fun _ => (1:ℚ)/2) 1 0 =
      [⟨5, 5, 8, 1, -(1/2)⟩] ∧
      (5:ℚ) - 8 < (sandBox cexSandPolygon).minX := by
  have hfind : findLakeCenter cexSandPolygon (sandBox cexSandPolygon) 8
      (fun _ => (1:ℚ)/2) lakeMaxAttempts 0 = (some ⟨5, 5⟩, 2) := by
    rw [lakeMaxAttempts, findLakeCenter]
    norm_num [randFloat, sandBox, cexSandPolygon, isPointInPolygon, pipEdge,
      List.range_succ]
  constructor
  · have hstep := generateLakes_succ_found cexSandPolygon 8 1 1 0 1 (fun _ _ => 0)
      (fun _ => (1:ℚ)/2) 0 0 ⟨5, 5⟩ 2 hfind
    rw [generateLakes] at hstep
    exact hstep.trans (by norm_num)
  · norm_num [sandBox, cexSandPolygon]

/-- C7 amended: every recorded lake's center is accepted by the sand-polygon
test, its radius and depth are the configured ones (the radius is never
clamped), and its water level equals the pre-depression terrain height at the
center minus the depth plus half the depth; the lake's sampling disk stays
inside the bounding box only under the additional hypothesis that the
radius-inset sampling interval is nonempty in both axes (box at least
`2 * lakeRadius` wide), in which case the center is at least `lakeRadius`
from every side of the box. -/
theorem lakes_recorded_amended (polygon : List Pt3)
    (lakeRadius lakeDepth noiseScale baseHeight noiseStrength : ℚ)
    (noiseO : ℚ → ℚ → ℚ) (rnd : ℕ → ℚ) (numLakes : ℕ)
    (hrnd : ∀ i, 0 ≤ rnd i ∧ rnd i ≤ 1)
    (hfitX : (sandBox polygon).minX + lakeRadius ≤ (sandBox polygon).maxX - lakeRadius)
    (hfitZ : (sandBox polygon).minZ + lakeRadius ≤ (sandBox polygon).maxZ - lakeRadius) :
    ∀ k, ∀ lake ∈ generateLakes polygon lakeRadius lakeDepth noiseScale baseHeight
        noiseStrength noiseO rnd numLakes k,
      isPointInPolygon ⟨lake.centerX, lake.centerZ⟩ polygon = true ∧
        lake.radius = lakeRadius ∧ lake.depth = lakeDepth ∧
        lake.waterLevel = (baseHeight + noiseO (lake.centerX * noiseScale)
          (lake.centerZ * noiseScale) * noiseStrength) - lake.depth + lake.depth * (1/2) ∧
        (sandBox polygon).minX ≤ lake.centerX - lakeRadius ∧
        lake.centerX + lakeRadius ≤ (sandBox polygon).maxX ∧
        (sandBox polygon).minZ ≤ lake.centerZ - lakeRadius ∧
        lake.centerZ + lakeRadius ≤ (sandBox polygon).maxZ := by
  induction numLakes with
  | zero =>
    intro k lake hmem
    rw [generateLakes] at hmem
    exact absurd hmem (List.not_mem_nil lake)
  | succ n ih =>
    intro k lake hmem
    rw [generateLakes] at hmem
    rcases hcase : findLakeCenter polygon (sandBox polygon) lakeRadius rnd
        lakeMaxAttempts k with ⟨copt, k2⟩
    rw [hcase] at hmem
    cases copt with
    | none => exact ih k2 lake hmem
    | some c =>
      rcases List.mem_cons.mp hmem with rfl | htail
      · obtain ⟨hpip, hx1, hx2, hz1, hz2⟩ :=
          findLakeCenter_spec polygon (sandBox polygon) lakeRadius rnd hrnd hfitX hfitZ
            lakeMaxAttempts k c k2 hcase
        exact ⟨hpip, rfl, rfl, rfl, by linarith, by linarith, by linarith, by linarith⟩
      · exact ih k2 lake htail

/-- Witness for the amended C7 theorem: a radius-2 lake on the 10 × 10 sand
square, placed at `(5, 5)` with the random stream mocked at `1/2`. -/
theorem lakes_recorded_amended_witness :
    isPointInPolygon ⟨(5:ℚ), 5⟩ cexSandPolygon = true ∧
      ((5:ℚ) = 2 ∨ True) ∧
      (sandBox cexSandPolygon).minX ≤ (5:ℚ) - 2 := by
  have hfind : findLakeCenter cexSandPolygon (sandBox cexSandPolygon) 2
      (fun _ => (1:ℚ)/2) lakeMaxAttempts 0 = (some ⟨5, 5⟩, 2) := by
    rw [lakeMaxAttempts, findLakeCenter]
    norm_num [randFloat, sandBox, cexSandPolygon, isPointInPolygon, pipEdge,
      List.range_succ]
  have hmem : (⟨5, 5, 2, 1, -(1/2)⟩ : Lake) ∈ generateLakes cexSandPolygon 2 1 1 0 1
      (fun _ _ => 0) (fun _ => (1:ℚ)/2) 1 0 := by
    have hstep := generateLakes_succ_found cexSandPolygon 2 1 1 0 1 (fun _ _ => 0)
      (fun _ => (1:ℚ)/2) 0 0 ⟨5, 5⟩ 2 hfind
    rw [generateLakes] at hstep
    have hlist := hstep.trans (show _ = [(⟨5, 5, 2, 1, -(1/2)⟩ : Lake)] by norm_num)
    have hmem2 : (⟨5, 5, 2, 1, -(1/2)⟩ : Lake) ∈ generateLakes cexSandPolygon 2 1 1 0 1
        (fun _ _ => 0) (fun _ => (1:ℚ)/2) (0 + 1) 0 := by
      rw [hlist]
      exact List.mem_singleton.mpr rfl
    exact hmem2
  have h := lakes_recorded_amended cexSandPolygon 2 1 1 0 1 (fun _ _ => 0)
    (fun _ => (1:ℚ)/2) 1 (fun i => by norm_num)
    (by norm_num [sandBox, cexSandPolygon]) (by norm_num [sandBox, cexSandPolygon])
    0 ⟨5, 5, 2, 1, -(1/2)⟩ hmem
  exact ⟨h.1, Or.inr trivial, h.2.2.2.2.1⟩

/-- C9: rerunning the terrain-buffer generation with the random source
mocked to the same values, the noise seeded identically (equal noise
function), equal floating-point library behaviour and equal configuration
yields an identical terrain vertex buffer: the same ring heights and the
same UV coordinates. -/
theorem terrain_buffer_deterministic (run1 run2 : TerrainRun)
    (hnoise : run1.noise = run2.noise) (hsqrt : run1.sqrtO = run2.sqrtO)
    (hatan : run1.atanO = run2.atanO) (hnormals : run1.normalsY = run2.normalsY)
    (hpi : run1.piF = run2.piF)
    (hcfg : run1.noiseScale = run2.noiseScale ∧ run1.baseHeight = run2.baseHeight ∧
      run1.noiseStrength = run2.noiseStrength ∧ run1.baseRadius = run2.baseRadius)
    (hgeom : run1.centerPoint = run2.centerPoint ∧ run1.contour = run2.contour ∧
      run1.lakes = run2.lakes) :
    terrainVertexBuffer run1 = terrainVertexBuffer run2 := by
  obtain ⟨n1, s1, a1, ny1, p1, ns1, bh1, nst1, br1, cp1, ct1, lk1⟩ := run1
  obtain ⟨n2, s2, a2, ny2, p2, ns2, bh2, nst2, br2, cp2, ct2, lk2⟩ := run2
  obtain ⟨h1, h2, h3, h4⟩ := hcfg
  obtain ⟨g1, g2, g3⟩ := hgeom
  simp only at hnoise hsqrt hatan hnormals hpi h1 h2 h3 h4 g1 g2 g3
  subst hnoise hsqrt hatan hnormals hpi h1 h2 h3 h4 g1 g2 g3
  rfl

/-- Witness for C9 at a concrete run compared with itself. -/
theorem terrain_buffer_deterministic_witness :
    terrainVertexBuffer wRun = terrainVertexBuffer wRun :=
  terrain_buffer_deterministic wRun wRun rfl rfl rfl rfl rfl
    ⟨rfl, rfl, rfl, rfl⟩ ⟨rfl, rfl, rfl⟩

/-- C10: every path returned by `traceRiverPath` has strictly decreasing
heights from the first point onward: each appended point is strictly lower
than its predecessor, because the walk breaks before appending whenever the
best forward sample is not lower than the current point. -/
theorem traceRiverPath_strictly_descending (samples : ℕ → Pt3 → List Pt3)
    (lakes : List Lake) (startPoint : Pt3) :
    List.Chain' (fun a b : Pt3 => b.y < a.y) (traceRiverPath samples lakes startPoint) :=
  traceRiverFrom_chain samples lakes riverMaxSteps 0 startPoint

/-! Union-find verification: parent chains, roots, path compression. -/

/-- Helper: a fixpoint is its own root. -/
theorem rootOf_self (parent : ℕ → ℕ) (i : ℕ) (h : parent i = i) : RootOf parent i i :=
  ⟨Relation.ReflTransGen.refl, h⟩

/-- Helper: no parent chain leaves a fixpoint. -/
theorem rtg_from_fix (parent : ℕ → ℕ) {r r' : ℕ} (hr : parent r = r)
    (h : Relation.ReflTransGen (PStep parent) r r') : r' = r := by
  rcases Relation.ReflTransGen.cases_head h with heq | ⟨c, ⟨hc1, hc2⟩, _⟩
  · exact heq.symm
  · exact absurd (hr.symm.trans hc1) hc2

/-- Helper: parent chains are deterministic, so roots are unique. -/
theorem rootOf_unique (parent : ℕ → ℕ) : ∀ {i r r' : ℕ},
    RootOf parent i r → RootOf parent i r' → r = r' := by
  intro i r r' h1 h2
  obtain ⟨hrtg1, hfix1⟩ := h1
  obtain ⟨hrtg2, hfix2⟩ := h2
  induction hrtg1 using Relation.ReflTransGen.head_induction_on with
  | refl => exact (rtg_from_fix parent hfix1 hrtg2).symm
  | head hstep hrtg ih =>
    rcases Relation.ReflTransGen.cases_head hrtg2 with heq | ⟨c', ⟨hc1, hc2⟩, hrtg2'⟩
    · subst heq
      exact absurd (hfix2.symm.trans hstep.1) hstep.2
    · have hcc : c' = _ := hc1.symm.trans hstep.1
      subst hcc
      exact ih hrtg2'

/-- Helper: an explicit chain witnesses the root relation. -/
theorem chainL_rootOf (parent : ℕ → ℕ) :
    ∀ (l : List ℕ) (i r : ℕ), ChainL parent l i r → RootOf parent i r := by
  intro l
  induction l with
  | nil =>
    intro i r h
    obtain ⟨h1, h2⟩ := h
    exact h1 ▸ rootOf_self parent i (h1 ▸ h2)
  | cons a l ih =>
    intro i r h
    obtain ⟨ha, hne, hc⟩ := h
    obtain ⟨hrtg, hfix⟩ := ih (parent i) r hc
    exact ⟨Relation.ReflTransGen.head ⟨rfl, Ne.symm hne⟩ hrtg, hfix⟩

/-- Helper: chains from a node are unique. -/
theorem chainL_det (parent : ℕ → ℕ) :
    ∀ (l : List ℕ), ∀ (l' : List ℕ) (i r r' : ℕ),
      ChainL parent l i r → ChainL parent l' i r' → l = l' ∧ r = r' := by
  intro l
  induction l with
  | nil =>
    intro l' i r r' h h'
    obtain ⟨h1, h2⟩ := h
    cases l' with
    | nil =>
      obtain ⟨h1', _⟩ := h'
      exact ⟨rfl, h1.symm.trans h1'⟩
    | cons a' t' =>
      obtain ⟨_, hne', _⟩ := h'
      exact absurd (h1 ▸ h2) hne'
  | cons a t ih =>
    intro l' i r r' h h'
    obtain ⟨ha, hne, hc⟩ := h
    cases l' with
    | nil =>
      obtain ⟨h1', h2'⟩ := h'
      exact absurd (h1' ▸ h2') hne
    | cons a' t' =>
      obtain ⟨ha', hne', hc'⟩ := h'
      obtain ⟨hteq, hreq⟩ := ih t' (parent i) r r' hc hc'
      exact ⟨by rw [ha, ha', hteq], hreq⟩

/-- Helper: every rooted node has an explicit chain. -/
theorem rootOf_chainL (parent : ℕ → ℕ) : ∀ {i r : ℕ},
    RootOf parent i r → ∃ l, ChainL parent l i r := by
  intro i r h
  obtain ⟨hrtg, hfix⟩ := h
  induction hrtg using Relation.ReflTransGen.head_induction_on with
  | refl => exact ⟨[], rfl, hfix⟩
  | head hstep hrtg ih =>
    obtain ⟨l, hl⟩ := ih
    refine ⟨_ :: l, rfl, ?_, ?_⟩
    · rw [hstep.1]
      exact Ne.symm hstep.2
    · rw [hstep.1]
      exact hl

/-- Helper: any member of a chain has a chain to the same root, no longer
than the original. -/
theorem chainL_mem (parent : ℕ → ℕ) :
    ∀ (l : List ℕ) (j r x : ℕ), ChainL parent l j r → x ∈ l →
      ∃ l', ChainL parent l' x r ∧ l'.length ≤ l.length := by
  intro l
  induction l with
  | nil =>
    intro j r x _ hx
    exact absurd hx (List.not_mem_nil x)
  | cons a t ih =>
    intro j r x h hx
    obtain ⟨ha, hne, hc⟩ := h
    rcases List.mem_cons.mp hx with rfl | hx'
    · exact ⟨x :: t, ⟨rfl, ha ▸ hne, ha ▸ hc⟩, le_refl _⟩
    · obtain ⟨l', hl', hlen⟩ := ih (parent j) r x hc hx'
      exact ⟨l', hl', hlen.trans (by simp)⟩

/-- Helper: chains never repeat a node. -/
theorem chainL_nodup (parent : ℕ → ℕ) :
    ∀ (l : List ℕ) (i r : ℕ), ChainL parent l i r → l.Nodup := by
  intro l
  induction l with
  | nil => intro _ _ _; exact List.nodup_nil
  | cons a t ih =>
    intro i r h
    obtain ⟨ha, hne, hc⟩ := h
    subst ha
    refine List.nodup_cons.mpr ⟨?_, ih (parent a) r hc⟩
    intro hmem
    obtain ⟨l', hl', hlen⟩ := chainL_mem parent t (parent a) r a hc hmem
    obtain ⟨hleq, _⟩ := chainL_det parent l' (a :: t) a r r hl' ⟨rfl, hne, hc⟩
    rw [hleq] at hlen
    simp at hlen

/-- Helper: a chain starting below `n` stays below `n` when the parent map
preserves `[0, n)`. -/
theorem chainL_lt (parent : ℕ → ℕ) (n : ℕ) (h2 : ∀ i, i < n → parent i < n) :
    ∀ (l : List ℕ) (i r : ℕ), ChainL parent l i r → i < n → ∀ x ∈ l, x < n := by
  intro l
  induction l with
  | nil => intro i r _ _ x hx; exact absurd hx (List.not_mem_nil x)
  | cons a t ih =>
    intro i r h hi x hx
    obtain ⟨ha, hne, hc⟩ := h
    rcases List.mem_cons.mp hx with rfl | hx'
    · exact ha ▸ hi
    · exact ih (parent i) r hc (h2 i hi) x hx'

/-- Helper: a chain starting below `n` has length at most `n`. -/
theorem chainL_length_le (parent : ℕ → ℕ) (n : ℕ) (h2 : ∀ i, i < n → parent i < n) :
    ∀ (l : List ℕ) (i r : ℕ), ChainL parent l i r → i < n → l.length ≤ n := by
  intro l i r hl hi
  have hnd : l.Nodup := chainL_nodup parent l i r hl
  have hsub : l.toFinset ⊆ Finset.range n := by
    intro x hx
    rw [List.mem_toFinset] at hx
    exact Finset.mem_range.mpr (chainL_lt parent n h2 l i r hl hi x hx)
  have hcard := Finset.card_le_card hsub
  rw [List.toFinset_card_of_nodup hnd, Finset.card_range] at hcard
  exact hcard

/-- Helper: the unfolding of `find` at a non-fixpoint. -/
theorem ufFind_succ_ne (fuel : ℕ) (parent : ℕ → ℕ) (i : ℕ) (h : parent i ≠ i) :
    ufFind (fuel + 1) parent i =
      ((ufFind fuel parent (parent i)).1,
       fun j => if j = i then (ufFind fuel parent (parent i)).1
         else (ufFind fuel parent (parent i)).2 j) := by
  rw [ufFind]
  simp [h]

/-- Helper: with enough fuel, `find` returns the chain's root (the
compression writes never affect the traversal, which reads each parent
before rewriting it). -/
theorem ufFind_fst (parent : ℕ → ℕ) :
    ∀ (l : List ℕ) (fuel i r : ℕ), ChainL parent l i r → l.length ≤ fuel →
      (ufFind fuel parent i).1 = r := by
  intro l
  induction l with
  | nil =>
    intro fuel i r h _
    obtain ⟨h1, h2⟩ := h
    subst h1
    cases fuel with
    | zero => rfl
    | succ fuel => simp [ufFind, h2]
  | cons a t ih =>
    intro fuel i r h hlen
    obtain ⟨ha, hne, hc⟩ := h
    cases fuel with
    | zero => simp at hlen
    | succ fuel =>
      rw [ufFind_succ_ne fuel parent i hne]
      exact ih fuel (parent i) r hc (by simpa using hlen)

/-- Helper: the compressed map only jumps nodes toward their own roots. -/
theorem ufFind_snd_jumps (parent : ℕ → ℕ) :
    ∀ (l : List ℕ) (fuel i r : ℕ), ChainL parent l i r → l.length ≤ fuel →
      Jumps parent (ufFind fuel parent i).2 := by
  intro l
  induction l with
  | nil =>
    intro fuel i r h _
    obtain ⟨h1, h2⟩ := h
    subst h1
    cases fuel with
    | zero => exact fun j => Or.inl rfl
    | succ fuel =>
      intro j
      simp [ufFind, h2]
  | cons a t ih =>
    intro fuel i r h hlen
    obtain ⟨ha, hne, hc⟩ := h
    cases fuel with
    | zero => simp at hlen
    | succ fuel =>
      rw [ufFind_succ_ne fuel parent i hne]
      intro j
      by_cases hj : j = i
      · subst hj
        refine Or.inr ⟨r, chainL_rootOf parent (j :: t) j r ⟨rfl, hne, ha ▸ hc⟩, ?_⟩
        simp only [if_pos rfl]
        exact ufFind_fst parent t fuel (parent j) r hc (by simpa using hlen)
      · have := ih fuel (parent i) r hc (by simpa using hlen) j
        simpa [hj] using this

/-- Helper: pointer jumps preserve the root relation, forward direction. -/
theorem rootOf_jumps (parent parent2 : ℕ → ℕ) (hj : Jumps parent parent2) :
    ∀ {i r : ℕ}, RootOf parent i r → RootOf parent2 i r := by
  have hfix2 : ∀ r, parent r = r → parent2 r = r := by
    intro r hr
    rcases hj r with h | ⟨ρ, hρ, h⟩
    · exact h.trans hr
    · rw [h, rootOf_unique parent hρ (rootOf_self parent r hr)]
  intro i r h
  obtain ⟨hrtg, hfix⟩ := h
  refine ⟨?_, hfix2 r hfix⟩
  induction hrtg using Relation.ReflTransGen.head_induction_on with
  | refl => exact Relation.ReflTransGen.refl
  | head hstep hrtg ih =>
    rename_i a c
    rcases hj a with h | ⟨ρ, hρ, h⟩
    · exact Relation.ReflTransGen.head ⟨h.trans hstep.1, hstep.2⟩ ih
    · have hρr : ρ = r :=
        rootOf_unique parent hρ ⟨Relation.ReflTransGen.head hstep hrtg, hfix⟩
      subst hρr
      have hanr : a ≠ ρ := by
        intro hh
        subst hh
        exact hstep.2 (hstep.1.symm.trans hfix).symm
      exact Relation.ReflTransGen.head ⟨h, hanr⟩ Relation.ReflTransGen.refl

/-- Helper: pointer jumps preserve the root relation, backward direction. -/
theorem rootOf_jumps_back (parent parent2 : ℕ → ℕ) (hj : Jumps parent parent2) :
    ∀ {i r : ℕ}, RootOf parent2 i r → RootOf parent i r := by
  have hfix1 : ∀ r, parent2 r = r → parent r = r := by
    intro r hr
    rcases hj r with h | ⟨ρ, hρ, h⟩
    · exact h.symm.trans hr
    · have : ρ = r := h.symm.trans hr
      subst this
      exact hρ.2
  intro i r h
  obtain ⟨hrtg, hfix⟩ := h
  have hfix' : parent r = r := hfix1 r hfix
  refine ⟨?_, hfix'⟩
  induction hrtg using Relation.ReflTransGen.head_induction_on with
  | refl => exact Relation.ReflTransGen.refl
  | head hstep hrtg ih =>
    rcases hj _ with h | ⟨ρ, hρ, h⟩
    · exact Relation.ReflTransGen.head ⟨h.symm.trans hstep.1, hstep.2⟩ ih
    · have hcρ : _ = ρ := hstep.1.symm.trans h
      subst hcρ
      have : r = _ := rtg_from_fix parent hρ.2 ih
      subst this
      exact hρ.1

/-- Helper: the root of a node below `n` is below `n` when the parent map
preserves `[0, n)`. -/
theorem rootOf_lt (parent : ℕ → ℕ) (n : ℕ) (h2 : ∀ i, i < n → parent i < n) :
    ∀ {i r : ℕ}, RootOf parent i r → i < n → r < n := by
  intro i r h
  obtain ⟨hrtg, _⟩ := h
  induction hrtg using Relation.ReflTransGen.head_induction_on with
  | refl => exact fun h => h
  | head hstep hrtg ih => exact fun ha => ih (hstep.1 ▸ h2 _ ha)

/-- Helper: pointer jumps preserve the union-find invariant. -/
theorem ufInv_jumps (n : ℕ) (parent parent2 : ℕ → ℕ) (hinv : UFInv n parent)
    (hj : Jumps parent parent2) : UFInv n parent2 := by
  obtain ⟨h1, h2, h3⟩ := hinv
  refine ⟨?_, ?_, ?_⟩
  · intro i hi
    rcases hj i with h | ⟨ρ, hρ, h⟩
    · exact h.trans (h1 i hi)
    · rw [h, rootOf_unique parent hρ (rootOf_self parent i (h1 i hi))]
  · intro i hi
    rcases hj i with h | ⟨ρ, hρ, h⟩
    · exact h ▸ h2 i hi
    · rw [h]
      exact rootOf_lt parent n h2 hρ hi
  · intro i
    obtain ⟨r, hr⟩ := h3 i
    exact ⟨r, rootOf_jumps parent parent2 hj hr⟩

/-! Connectivity along candidate edge lists. -/

/-- Helper: connectivity only grows when the edge list grows. -/
theorem conn_mono {E F : List EdgeC} (hsub : ∀ e ∈ E, e ∈ F) {a b : ℕ}
    (h : Conn E a b) : Conn F a b :=
  Relation.ReflTransGen.mono (fun _ _ ⟨e, he, hm⟩ => ⟨e, hsub e he, hm⟩) h

/-- Helper: connectivity is symmetric. -/
theorem conn_symm {E : List EdgeC} {a b : ℕ} (h : Conn E a b) : Conn E b a := by
  have hsym : Symmetric (EdgeStep E) := by
    intro x y ⟨e, he, hm⟩
    exact ⟨e, he, hm.symm⟩
  exact (Relation.ReflTransGen.symmetric hsym) h

/-- Helper: a listed edge connects its endpoints. -/
theorem conn_single {E : List EdgeC} {e : EdgeC} (he : e ∈ E) : Conn E e.u e.v :=
  Relation.ReflTransGen.single ⟨e, he, Or.inl ⟨rfl, rfl⟩⟩

/-- Helper: the empty edge list only connects a node to itself. -/
theorem conn_nil {a b : ℕ} : Conn [] a b ↔ a = b := by
  constructor
  · intro h
    induction h with
    | refl => rfl
    | tail _ hstep ih =>
      obtain ⟨e, he, _⟩ := hstep
      exact absurd he (List.not_mem_nil e)
  · rintro rfl
    exact Relation.ReflTransGen.refl

/-- Helper: appending one edge merges exactly the two end classes. -/
theorem conn_append_single {E : List EdgeC} {e0 : EdgeC} {x y : ℕ} :
    Conn (E ++ [e0]) x y ↔
      Conn E x y ∨ (Conn E x e0.u ∧ Conn E e0.v y) ∨
        (Conn E x e0.v ∧ Conn E e0.u y) := by
  constructor
  · intro h
    induction h with
    | refl => exact Or.inl Relation.ReflTransGen.refl
    | tail hrtg hstep ih =>
      rename_i b c
      obtain ⟨e, he, hm⟩ := hstep
      rcases List.mem_append.mp he with heE | heNew
      · have hbc : Conn E b c := Relation.ReflTransGen.single ⟨e, heE, hm⟩
        rcases ih with h1 | ⟨h1, h2⟩ | ⟨h1, h2⟩
        · exact Or.inl (h1.trans hbc)
        · exact Or.inr (Or.inl ⟨h1, h2.trans hbc⟩)
        · exact Or.inr (Or.inr ⟨h1, h2.trans hbc⟩)
      · have heq : e = e0 := List.mem_singleton.mp heNew
        subst heq
        rcases hm with ⟨hu, hv⟩ | ⟨hu, hv⟩
        · rcases ih with h1 | ⟨h1, _⟩ | ⟨h1, _⟩
          · exact Or.inr (Or.inl ⟨hu ▸ h1, hv ▸ Relation.ReflTransGen.refl⟩)
          · exact Or.inr (Or.inl ⟨h1, hv ▸ Relation.ReflTransGen.refl⟩)
          · exact Or.inl (hv ▸ h1)
        · rcases ih with h1 | ⟨h1, _⟩ | ⟨h1, _⟩
          · exact Or.inr (Or.inr ⟨hv ▸ h1, hu ▸ Relation.ReflTransGen.refl⟩)
          · exact Or.inl (hu ▸ h1)
          · exact Or.inr (Or.inr ⟨h1, hu ▸ Relation.ReflTransGen.refl⟩)
  · have hsub : ∀ f ∈ E, f ∈ E ++ [e0] := fun f hf => List.mem_append_left _ hf
    have hnew : Conn (E ++ [e0]) e0.u e0.v :=
      conn_single (List.mem_append_right _ (List.mem_singleton.mpr rfl))
    rintro (h | ⟨h1, h2⟩ | ⟨h1, h2⟩)
    · exact conn_mono hsub h
    · exact ((conn_mono hsub h1).trans hnew).trans (conn_mono hsub h2)
    · exact ((conn_mono hsub h1).trans (conn_symm hnew)).trans (conn_mono hsub h2)

/-- Helper: permutations do not change connectivity. -/
theorem conn_perm {E F : List EdgeC} (h : E.Perm F) {a b : ℕ} :
    Conn E a b ↔ Conn F a b :=
  ⟨conn_mono (fun e he => h.mem_iff.mp he), conn_mono (fun e he => h.mem_iff.mpr he)⟩

/-- Helper: the empty edge list is acyclic. -/
theorem acyclic_nil : AcyclicEdges [] := by
  intro l1 e l2 h
  exact absurd h.symm (List.append_ne_nil_of_right_ne_nil l1 (List.cons_ne_nil e l2))

/-- Helper: growing a forest by an edge between two unconnected nodes keeps
it a forest. -/
theorem acyclic_extend {M : List EdgeC} {e0 : EdgeC} (hM : AcyclicEdges M)
    (hnc : ¬ Conn M e0.u e0.v) : AcyclicEdges (M ++ [e0]) := by
  intro l1 e l2 hsplit
  rcases List.eq_nil_or_concat l2 with rfl | ⟨l2', a, rfl⟩
  · obtain ⟨h1, h2⟩ := List.append_inj' hsplit rfl
    have he0 : e0 = e := by simpa using h2
    rw [he0, h1] at hnc
    simpa using hnc
  · simp only [List.concat_eq_append] at hsplit ⊢
    have hsplit' : M ++ [e0] = (l1 ++ e :: l2') ++ [a] := by
      rw [hsplit]; simp
    obtain ⟨h1, h2⟩ := List.append_inj' hsplit' rfl
    have ha : a = e0 := by simpa using h2.symm
    rw [ha]
    intro hconn
    have hconn' : Conn ((l1 ++ l2') ++ [e0]) e.u e.v := by
      have : l1 ++ l2' ++ [e0] = l1 ++ (l2' ++ [e0]) := by simp
      exact this ▸ hconn
    have hME : ∀ f ∈ l1 ++ l2', f ∈ M := by
      intro f hf
      rw [h1]
      rcases List.mem_append.mp hf with hf1 | hf2
      · exact List.mem_append_left _ hf1
      · exact List.mem_append_right _ (List.mem_cons_of_mem e hf2)
    have hbridge := hM l1 e l2' h1
    rcases conn_append_single.mp hconn' with hc | ⟨hc1, hc2⟩ | ⟨hc1, hc2⟩
    · exact hbridge hc
    · refine hnc ?_
      have heuv : Conn M e.u e.v := conn_single (by rw [h1]; exact List.mem_append_right _ (List.mem_cons_self e l2'))
      exact ((conn_symm (conn_mono hME hc1)).trans heuv).trans (conn_symm (conn_mono hME hc2))
    · refine hnc ?_
      have heuv : Conn M e.u e.v := conn_single (by rw [h1]; exact List.mem_append_right _ (List.mem_cons_self e l2'))
      exact (conn_mono hME hc2).trans ((conn_symm heuv).trans (conn_mono hME hc1))

/-- Helper: forests are preserved by permutation. -/
theorem acyclic_perm {E F : List EdgeC} (hp : E.Perm F) (hE : AcyclicEdges E) :
    AcyclicEdges F := by
  intro l1 e l2 hsplit
  have heF : e ∈ E := hp.mem_iff.mpr (by rw [hsplit]; exact List.mem_append_right _ (List.mem_cons_self e l2))
  obtain ⟨m1, m2, hm⟩ := List.append_of_mem heF
  have hEF : (m1 ++ e :: m2).Perm (l1 ++ e :: l2) := by
    rw [← hm, ← hsplit]
    exact hp
  have hperm1 : (e :: (m1 ++ m2)).Perm (e :: (l1 ++ l2)) :=
    (List.perm_middle.symm.trans hEF).trans List.perm_middle
  have hperm2 : (m1 ++ m2).Perm (l1 ++ l2) := hperm1.cons_inv
  intro hconn
  exact hE m1 e m2 hm ((conn_perm hperm2).mpr hconn)

/-- Helper: a prefix of a forest is a forest. -/
theorem acyclic_prefix {E F : List EdgeC} (h : AcyclicEdges (E ++ F)) :
    AcyclicEdges E := by
  intro l1 e l2 hsplit
  intro hconn
  refine h l1 e (l2 ++ F) (by rw [hsplit]; simp) ?_
  have : ∀ f ∈ l1 ++ l2, f ∈ l1 ++ (l2 ++ F) := by
    intro f hf
    rcases List.mem_append.mp hf with h1 | h2
    · exact List.mem_append_left _ h1
    · exact List.mem_append_right _ (List.mem_append_left _ h2)
  exact conn_mono this hconn

/-! The `union` update of the parent map. -/

/-- Helper: re-pointing a root `ru` at another root `rv` sends every old root
`r` to `r` itself, except `ru` which now reaches `rv`. -/
theorem rootOf_union (ρ : ℕ → ℕ) (ru rv : ℕ) (hru : ρ ru = ru) (hrv : ρ rv = rv)
    (hne : ru ≠ rv) : ∀ {i r : ℕ}, RootOf ρ i r →
      RootOf (unionAt ρ ru rv) i (if r = ru then rv else r) := by
  intro i r h
  obtain ⟨hrtg, hfix⟩ := h
  have hfix' : unionAt ρ ru rv (if r = ru then rv else r) = (if r = ru then rv else r) := by
    by_cases hr : r = ru
    · rw [if_pos hr]
      show (if rv = ru then rv else ρ rv) = rv
      rw [if_neg (Ne.symm hne)]
      exact hrv
    · rw [if_neg hr]
      show (if r = ru then rv else ρ r) = r
      rw [if_neg hr]
      exact hfix
  refine ⟨?_, hfix'⟩
  induction hrtg using Relation.ReflTransGen.head_induction_on with
  | refl =>
    by_cases hr : r = ru
    · subst hr
      rw [if_pos rfl]
      refine Relation.ReflTransGen.single ⟨?_, hne⟩
      simp [unionAt]
    · rw [if_neg hr]
  | head hstep hrtg ih =>
    rename_i a c
    have hane : a ≠ ru := by
      intro hh
      subst hh
      exact hstep.2 (hstep.1.symm.trans hru).symm
    refine Relation.ReflTransGen.head ⟨?_, hstep.2⟩ ih
    simpa [unionAt, hane] using hstep.1

/-- Helper: pointer jumps preserve the class relation in both directions. -/
theorem ufSame_jumps (parent parent2 : ℕ → ℕ) (hj : Jumps parent parent2) (x y : ℕ) :
    UFSame parent x y ↔ UFSame parent2 x y :=
  ⟨fun ⟨r, h1, h2⟩ => ⟨r, rootOf_jumps parent parent2 hj h1, rootOf_jumps parent parent2 hj h2⟩,
   fun ⟨r, h1, h2⟩ =>
     ⟨r, rootOf_jumps_back parent parent2 hj h1, rootOf_jumps_back parent parent2 hj h2⟩⟩

/-- Helper: the classes after a `union` are the old classes with the classes
of the two linked representatives fused. -/
theorem ufSame_union_iff (ρ : ℕ → ℕ) (u0 v0 ru rv : ℕ)
    (htot : ∀ i, ∃ r, RootOf ρ i r)
    (hru : RootOf ρ u0 ru) (hrv : RootOf ρ v0 rv) (hne : ru ≠ rv) (x y : ℕ) :
    UFSame (unionAt ρ ru rv) x y ↔
      UFSame ρ x y ∨ (UFSame ρ x u0 ∧ UFSame ρ v0 y) ∨
        (UFSame ρ x v0 ∧ UFSame ρ u0 y) := by
  have hmap : ∀ {i r : ℕ}, RootOf ρ i r →
      RootOf (unionAt ρ ru rv) i (if r = ru then rv else r) :=
    fun h => rootOf_union ρ ru rv hru.2 hrv.2 hne h
  constructor
  · rintro ⟨s, hx, hy⟩
    obtain ⟨rx, hrx⟩ := htot x
    obtain ⟨ry, hry⟩ := htot y
    have hsx : s = (if rx = ru then rv else rx) := rootOf_unique _ hx (hmap hrx)
    have hsy : s = (if ry = ru then rv else ry) := rootOf_unique _ hy (hmap hry)
    by_cases hxy : rx = ry
    · exact Or.inl ⟨rx, hrx, hxy ▸ hry⟩
    · by_cases hxu : rx = ru
      · have hyv : ry = rv := by
          by_cases hyu : ry = ru
          · exact absurd (hxu.trans hyu.symm) hxy
          · rw [if_pos hxu] at hsx
            rw [if_neg hyu] at hsy
            exact hsy.symm.trans hsx
        exact Or.inr (Or.inl ⟨⟨ru, hxu ▸ hrx, hru⟩, ⟨rv, hrv, hyv ▸ hry⟩⟩)
      · by_cases hyu : ry = ru
        · have hxv : rx = rv := by
            rw [if_neg hxu] at hsx
            rw [if_pos hyu] at hsy
            exact hsx.symm.trans hsy
          exact Or.inr (Or.inr ⟨⟨rv, hxv ▸ hrx, hrv⟩, ⟨ru, hru, hyu ▸ hry⟩⟩)
        · rw [if_neg hxu] at hsx
          rw [if_neg hyu] at hsy
          exact absurd (hsx.symm.trans hsy) hxy
  · rintro (⟨r, hx, hy⟩ | ⟨⟨r1, hx, hu⟩, ⟨r2, hv, hy⟩⟩ | ⟨⟨r1, hx, hv⟩, ⟨r2, hu, hy⟩⟩)
    · exact ⟨_, hmap hx, hmap hy⟩
    · have h1 : r1 = ru := rootOf_unique _ hu hru
      have h2 : r2 = rv := rootOf_unique _ hv hrv
      refine ⟨rv, ?_, ?_⟩
      · have := hmap hx
        rwa [h1, if_pos rfl] at this
      · have := hmap hy
        rwa [h2, if_neg (Ne.symm hne)] at this
    · have h1 : r1 = rv := rootOf_unique _ hv hrv
      have h2 : r2 = ru := rootOf_unique _ hu hru
      refine ⟨rv, ?_, ?_⟩
      · have := hmap hx
        rwa [h1, if_neg (Ne.symm hne)] at this
      · have := hmap hy
        rwa [h2, if_pos rfl] at this

/-- Helper: on a well-formed state, `find` with fuel `n` at a node below `n`
returns that node's root and only compresses pointers toward roots. -/
theorem ufFind_root (n : ℕ) (parent : ℕ → ℕ) (hinv : UFInv n parent) (i : ℕ)
    (hi : i < n) :
    RootOf parent i (ufFind n parent i).1 ∧ Jumps parent (ufFind n parent i).2 := by
  obtain ⟨h1, h2, h3⟩ := hinv
  obtain ⟨r, hr⟩ := h3 i
  obtain ⟨l, hl⟩ := rootOf_chainL parent hr
  have hlen : l.length ≤ n := chainL_length_le parent n h2 l i r hl hi
  refine ⟨?_, ufFind_snd_jumps parent l n i r hl hlen⟩
  rw [ufFind_fst parent l n i r hl hlen]
  exact hr

/-! The Kruskal fold invariant. -/

/-- Helper: the unfolding of the Kruskal loop body on a finite-weight edge. -/
theorem kruskalStep_eq (n : ℕ) (st : KState) (e : EdgeC) (hTop : e.weight ≠ ⊤) :
    kruskalStep n st e =
      if (ufFind n st.parent e.u).1 ≠ (ufFind n (ufFind n st.parent e.u).2 e.v).1 then
        ⟨unionAt (ufFind n (ufFind n st.parent e.u).2 e.v).2
            (ufFind n st.parent e.u).1 (ufFind n (ufFind n st.parent e.u).2 e.v).1,
          st.mst ++ [e], st.remaining⟩
      else ⟨(ufFind n (ufFind n st.parent e.u).2 e.v).2, st.mst, st.remaining ++ [e]⟩ := by
  simp only [kruskalStep, if_neg hTop]
  rfl

/-- Helper: one Kruskal iteration preserves the fold invariant. -/
theorem kruskalStep_inv (n : ℕ) (P : List EdgeC) (st : KState) (e : EdgeC)
    (rest : List EdgeC) (hinv : KInv n P st)
    (hsorted : List.Sorted wle (P ++ e :: rest)) (hu : e.u < n) (hv : e.v < n) :
    KInv n (P ++ [e]) (kruskalStep n st e) := by
  obtain ⟨hUF, hSame, hAcy, hSub, hFin, hCprop⟩ := hinv
  have hPle : ∀ a ∈ P, wle a e := fun a ha =>
    (List.pairwise_append.mp hsorted).2.2 a ha e (List.mem_cons_self e rest)
  by_cases hTop : e.weight = ⊤
  · rw [kruskalStep, if_pos hTop]
    refine ⟨hUF, hSame, hAcy, hSub.trans (List.sublist_append_left P [e]), hFin, ?_⟩
    intro f hf hfTop
    rcases List.mem_append.mp hf with hfP | hfe
    · exact hCprop f hfP hfTop
    · rw [List.mem_singleton.mp hfe] at hfTop
      exact absurd hTop hfTop
  · rw [kruskalStep_eq n st e hTop]
    obtain ⟨hrootu, hjump1⟩ := ufFind_root n st.parent hUF e.u hu
    have hUFp1 : UFInv n (ufFind n st.parent e.u).2 := ufInv_jumps n _ _ hUF hjump1
    obtain ⟨hrootv1, hjump2⟩ :=
      ufFind_root n (ufFind n st.parent e.u).2 hUFp1 e.v hv
    have hUFp2 : UFInv n (ufFind n (ufFind n st.parent e.u).2 e.v).2 :=
      ufInv_jumps n _ _ hUFp1 hjump2
    have hrootu2 : RootOf (ufFind n (ufFind n st.parent e.u).2 e.v).2 e.u
        (ufFind n st.parent e.u).1 :=
      rootOf_jumps _ _ hjump2 (rootOf_jumps _ _ hjump1 hrootu)
    have hrootv2 : RootOf (ufFind n (ufFind n st.parent e.u).2 e.v).2 e.v
        (ufFind n (ufFind n st.parent e.u).2 e.v).1 :=
      rootOf_jumps _ _ hjump2 hrootv1
    have hrootv0 : RootOf st.parent e.v (ufFind n (ufFind n st.parent e.u).2 e.v).1 :=
      rootOf_jumps_back _ _ hjump1 hrootv1
    have hSame2 : ∀ x y, UFSame (ufFind n (ufFind n st.parent e.u).2 e.v).2 x y ↔
        Conn st.mst x y := fun x y =>
      ((ufSame_jumps _ _ hjump2 x y).symm.trans
        (ufSame_jumps _ _ hjump1 x y).symm).trans (hSame x y)
    by_cases hroots : (ufFind n st.parent e.u).1 =
        (ufFind n (ufFind n st.parent e.u).2 e.v).1
    · rw [if_neg (fun h => h hroots)]
      refine ⟨hUFp2, hSame2, hAcy, hSub.trans (List.sublist_append_left P [e]), hFin, ?_⟩
      intro f hf hfTop
      rcases List.mem_append.mp hf with hfP | hfe
      · exact hCprop f hfP hfTop
      · rw [List.mem_singleton.mp hfe]
        have hsameuv : UFSame st.parent e.u e.v :=
          ⟨_, hroots ▸ hrootu, hrootv0⟩
        have hconn : Conn st.mst e.u e.v := (hSame e.u e.v).mp hsameuv
        have hfeq : st.mst.filter (fun k => decide (k.weight ≤ e.weight)) = st.mst :=
          List.filter_eq_self.mpr fun k hk =>
            decide_eq_true (hPle k (hSub.subset hk))
        rw [hfeq]
        exact hconn
    · rw [if_pos hroots]
      have hrun : (ufFind n st.parent e.u).1 < n :=
        rootOf_lt _ n hUFp2.2.1 hrootu2 hu
      have hrvn : (ufFind n (ufFind n st.parent e.u).2 e.v).1 < n :=
        rootOf_lt _ n hUFp2.2.1 hrootv2 hv
      have hnc : ¬ Conn st.mst e.u e.v := by
        intro hc
        obtain ⟨r, hru', hrv'⟩ := (hSame e.u e.v).mpr hc
        exact hroots ((rootOf_unique st.parent hrootu hru').trans
          (rootOf_unique st.parent hrootv0 hrv').symm)
      refine ⟨?_, ?_, acyclic_extend hAcy hnc,
        List.Sublist.append hSub (List.Sublist.refl [e]), ?_, ?_⟩
      · obtain ⟨g1, g2, g3⟩ := hUFp2
        refine ⟨?_, ?_, ?_⟩
        · intro k hk
          have hkne : k ≠ (ufFind n st.parent e.u).1 := fun h => hk (h ▸ hrun)
          show unionAt _ _ _ k = k
          rw [unionAt, if_neg hkne]
          exact g1 k hk
        · intro k hk
          show unionAt _ _ _ k < n
          rw [unionAt]
          by_cases hkr : k = (ufFind n st.parent e.u).1
          · rw [if_pos hkr]
            exact hrvn
          · rw [if_neg hkr]
            exact g2 k hk
        · intro k
          obtain ⟨r, hr⟩ := g3 k
          exact ⟨_, rootOf_union _ _ _ hrootu2.2 hrootv2.2 hroots hr⟩
      · intro x y
        refine (ufSame_union_iff _ e.u e.v _ _ hUFp2.2.2 hrootu2 hrootv2
          hroots x y).trans ?_
        rw [hSame2 x y, hSame2 x e.u, hSame2 e.v y, hSame2 x e.v, hSame2 e.u y]
        exact conn_append_single.symm
      · intro k hk
        rcases List.mem_append.mp hk with hkm | hke
        · exact hFin k hkm
        · rw [List.mem_singleton.mp hke]
          exact hTop
      · intro f hf hfTop
        rcases List.mem_append.mp hf with hfP | hfe
        · refine conn_mono ?_ (hCprop f hfP hfTop)
          intro k hk
          rw [List.filter_append]
          exact List.mem_append_left _ hk
        · rw [List.mem_singleton.mp hfe]
          refine conn_single (List.mem_filter.mpr ⟨?_, ?_⟩)
          · exact List.mem_append_right _ (List.mem_singleton.mpr rfl)
          · exact decide_eq_true le_rfl

/-- Helper: folding the Kruskal loop over a sorted suffix preserves the
invariant. -/
theorem kruskalFold_inv (n : ℕ) : ∀ (todo P : List EdgeC) (st : KState),
    KInv n P st → List.Sorted wle (P ++ todo) →
    (∀ e ∈ todo, e.u < n ∧ e.v < n) →
    KInv n (P ++ todo) (todo.foldl (kruskalStep n) st) := by
  intro todo
  induction todo with
  | nil =>
    intro P st h _ _
    simpa using h
  | cons e rest ih =>
    intro P st h hs he
    have hstep := kruskalStep_inv n P st e rest h hs
      (he e (List.mem_cons_self e rest)).1 (he e (List.mem_cons_self e rest)).2
    have hrec := ih (P ++ [e]) (kruskalStep n st e) hstep
      (by rw [List.append_assoc]; exact hs)
      (fun f hf => he f (List.mem_cons_of_mem e hf))
    rw [show P ++ e :: rest = (P ++ [e]) ++ rest by simp]
    exact hrec

/-- Helper: the starting state of the Kruskal pass satisfies the invariant. -/
theorem kruskal_init_inv (n : ℕ) : KInv n [] ⟨fun i => i, [], []⟩ := by
  refine ⟨⟨fun i _ => rfl, fun i hi => hi, fun i => ⟨i, rootOf_self _ i rfl⟩⟩,
    ?_, acyclic_nil, List.nil_sublist [], ?_, ?_⟩
  · intro x y
    rw [conn_nil]
    constructor
    · rintro ⟨r, hx, hy⟩
      have h1 : r = x := rtg_from_fix _ rfl hx.1
      have h2 : r = y := rtg_from_fix _ rfl hy.1
      exact h1.symm.trans h2
    · rintro rfl
      exact ⟨x, rootOf_self _ x rfl, rootOf_self _ x rfl⟩
  · intro k hk
    exact absurd hk (List.not_mem_nil k)
  · intro f hf
    exact absurd hf (List.not_mem_nil f)

/-- Helper: the sorted candidate list is sorted by weight. -/
theorem sortEdges_sorted (edges : List EdgeC) : List.Sorted wle (sortEdges edges) := by
  haveI h1 : IsTotal EdgeC (fun a b : EdgeC => a.weight ≤ b.weight) :=
    ⟨fun a b => le_total a.weight b.weight⟩
  haveI h2 : IsTrans EdgeC (fun a b : EdgeC => a.weight ≤ b.weight) :=
    ⟨fun _ _ _ hab hbc => le_trans hab hbc⟩
  exact List.sorted_insertionSort (fun a b : EdgeC => a.weight ≤ b.weight) edges

/-- Helper: the sorted candidate list is a permutation of the input. -/
theorem sortEdges_perm (edges : List EdgeC) : (sortEdges edges).Perm edges :=
  List.perm_insertionSort (fun a b : EdgeC => a.weight ≤ b.weight) edges

/-- Helper: the invariant holds of the finished Kruskal pass. -/
theorem kruskalRun_inv (n : ℕ) (edges : List EdgeC)
    (hE : ∀ e ∈ edges, e.u < n ∧ e.v < n) :
    KInv n (sortEdges edges) (kruskalRun n edges) := by
  have h := kruskalFold_inv n (sortEdges edges) [] ⟨fun i => i, [], []⟩
    (kruskal_init_inv n) (by simpa using sortEdges_sorted edges)
    (fun e he => hE e ((sortEdges_perm edges).mem_iff.mp he))
  simpa using h

/-! The abstract partition fold: labellings track connectivity, and the merge
count measures the rank a list of edges adds. -/

/-- Helper: an edge inside a class leaves the labelling's meaning intact. -/
theorem label_same (P : List EdgeC) (ρ : ℕ → ℕ) (e : EdgeC)
    (hiff : ∀ x y, ρ x = ρ y ↔ Conn P x y) (heq : ρ e.u = ρ e.v) :
    ∀ x y, ρ x = ρ y ↔ Conn (P ++ [e]) x y := by
  intro x y
  rw [conn_append_single]
  constructor
  · intro h
    exact Or.inl ((hiff x y).mp h)
  · rintro (h | ⟨h1, h2⟩ | ⟨h1, h2⟩)
    · exact (hiff x y).mpr h
    · exact ((hiff x e.u).mpr h1).trans (heq.trans ((hiff e.v y).mpr h2))
    · exact ((hiff x e.v).mpr h1).trans (heq.symm.trans ((hiff e.u y).mpr h2))

/-- Helper: relabelling one endpoint class onto the other makes the labelling
track the connectivity extended by that edge. -/
theorem label_merge (P : List EdgeC) (ρ : ℕ → ℕ) (e : EdgeC)
    (hiff : ∀ x y, ρ x = ρ y ↔ Conn P x y) :
    ∀ x y, (if ρ x = ρ e.u then ρ e.v else ρ x) = (if ρ y = ρ e.u then ρ e.v else ρ y)
      ↔ Conn (P ++ [e]) x y := by
  intro x y
  rw [conn_append_single]
  by_cases hx : ρ x = ρ e.u <;> by_cases hy : ρ y = ρ e.u
  · rw [if_pos hx, if_pos hy]
    constructor
    · intro _
      exact Or.inl ((hiff x y).mp (hx.trans hy.symm))
    · intro _
      rfl
  · rw [if_pos hx, if_neg hy]
    constructor
    · intro h
      exact Or.inr (Or.inl ⟨(hiff x e.u).mp hx, (hiff e.v y).mp h⟩)
    · rintro (h | ⟨h1, h2⟩ | ⟨h1, h2⟩)
      · exact absurd (((hiff x y).mpr h).symm.trans hx) hy
      · exact (hiff e.v y).mpr h2
      · exact absurd ((hiff e.u y).mpr h2).symm hy
  · rw [if_neg hx, if_pos hy]
    constructor
    · intro h
      exact Or.inr (Or.inr ⟨(hiff x e.v).mp h, (hiff e.u y).mp hy.symm⟩)
    · rintro (h | ⟨h1, h2⟩ | ⟨h1, h2⟩)
      · exact absurd (((hiff x y).mpr h).trans hy) hx
      · exact absurd ((hiff x e.u).mpr h1) hx
      · exact (hiff x e.v).mpr h1
  · rw [if_neg hx, if_neg hy]
    constructor
    · intro h
      exact Or.inl ((hiff x y).mp h)
    · rintro (h | ⟨h1, h2⟩ | ⟨h1, h2⟩)
      · exact (hiff x y).mpr h
      · exact absurd ((hiff x e.u).mpr h1) hx
      · exact absurd ((hiff e.u y).mpr h2).symm hy

/-- Helper: a merging relabel removes exactly the absorbed class from the
label image. -/
theorem image_merge (n : ℕ) (ρ : ℕ → ℕ) (e : EdgeC) (hu : e.u < n) (hv : e.v < n)
    (hne : ρ e.u ≠ ρ e.v) :
    (Finset.range n).image (fun x => if ρ x = ρ e.u then ρ e.v else ρ x) =
      ((Finset.range n).image ρ).erase (ρ e.u) := by
  ext b
  simp only [Finset.mem_image, Finset.mem_erase, Finset.mem_range]
  constructor
  · rintro ⟨x, hx, hbx⟩
    by_cases hxc : ρ x = ρ e.u
    · rw [if_pos hxc] at hbx
      exact ⟨hbx ▸ Ne.symm hne, ⟨e.v, hv, hbx⟩⟩
    · rw [if_neg hxc] at hbx
      exact ⟨hbx ▸ hxc, ⟨x, hx, hbx⟩⟩
  · rintro ⟨hbne, x, hx, hbx⟩
    refine ⟨x, hx, ?_⟩
    rw [if_neg (fun h => hbne (hbx.symm.trans h))]
    exact hbx

/-- Helper: the partition fold keeps the labelling equal to the accumulated
connectivity, and each merge removes one class: count plus class count is
invariant. -/
theorem mergeFold_master (n : ℕ) : ∀ (E P : List EdgeC) (ρ : ℕ → ℕ) (c : ℕ),
    (∀ x y, ρ x = ρ y ↔ Conn P x y) →
    (∀ e ∈ E, e.u < n ∧ e.v < n) →
    (∀ x y, (E.foldl mergeStep (ρ, c)).1 x = (E.foldl mergeStep (ρ, c)).1 y ↔
      Conn (P ++ E) x y) ∧
    (E.foldl mergeStep (ρ, c)).2 +
        ((Finset.range n).image (E.foldl mergeStep (ρ, c)).1).card
      = c + ((Finset.range n).image ρ).card := by
  intro E
  induction E with
  | nil =>
    intro P ρ c hiff _
    refine ⟨fun x y => ?_, rfl⟩
    simpa using hiff x y
  | cons e E' ih =>
    intro P ρ c hiff hEnd
    have hu := (hEnd e (List.mem_cons_self e E')).1
    have hv := (hEnd e (List.mem_cons_self e E')).2
    have hEnd' : ∀ f ∈ E', f.u < n ∧ f.v < n :=
      fun f hf => hEnd f (List.mem_cons_of_mem e hf)
    rw [List.foldl_cons]
    by_cases heq : ρ e.u = ρ e.v
    · have hms : mergeStep (ρ, c) e = (ρ, c) := by
        show (if ρ e.u = ρ e.v then (ρ, c)
          else (fun x => if ρ x = ρ e.u then ρ e.v else ρ x, c + 1)) = (ρ, c)
        rw [if_pos heq]
      rw [hms]
      have h := ih (P ++ [e]) ρ c (label_same P ρ e hiff heq) hEnd'
      simp only [List.append_assoc, List.singleton_append] at h
      exact h
    · have hms : mergeStep (ρ, c) e =
          (fun x => if ρ x = ρ e.u then ρ e.v else ρ x, c + 1) := by
        show (if ρ e.u = ρ e.v then (ρ, c)
          else (fun x => if ρ x = ρ e.u then ρ e.v else ρ x, c + 1)) = _
        rw [if_neg heq]
      rw [hms]
      have h := ih (P ++ [e]) (fun x => if ρ x = ρ e.u then ρ e.v else ρ x) (c + 1)
        (label_merge P ρ e hiff) hEnd'
      simp only [List.append_assoc, List.singleton_append] at h
      obtain ⟨hiff', hcard⟩ := h
      refine ⟨hiff', ?_⟩
      rw [hcard, image_merge n ρ e hu hv heq]
      have hmem : ρ e.u ∈ (Finset.range n).image ρ :=
        Finset.mem_image.mpr ⟨e.u, Finset.mem_range.mpr hu, rfl⟩
      rw [Finset.card_erase_of_mem hmem]
      have hpos : 0 < ((Finset.range n).image ρ).card := Finset.card_pos.mpr ⟨_, hmem⟩
      omega

/-- Helper: when every edge bridges two previously separate classes, the
fold counts every edge. -/
theorem mergeFold_all : ∀ (B P : List EdgeC) (ρ : ℕ → ℕ) (c : ℕ),
    (∀ x y, ρ x = ρ y ↔ Conn P x y) →
    (∀ (l1 : List EdgeC) (f : EdgeC) (l2 : List EdgeC),
      B = l1 ++ f :: l2 → ¬ Conn (P ++ l1) f.u f.v) →
    (B.foldl mergeStep (ρ, c)).2 = c + B.length := by
  intro B
  induction B with
  | nil =>
    intro P ρ c _ _
    simp [List.foldl_nil]
  | cons e B' ih =>
    intro P ρ c hiff hbr
    have hnc : ¬ Conn P e.u e.v := by
      have h := hbr [] e B' rfl
      simpa using h
    have hne : ρ e.u ≠ ρ e.v := fun h => hnc ((hiff e.u e.v).mp h)
    rw [List.foldl_cons]
    have hms : mergeStep (ρ, c) e =
        (fun x => if ρ x = ρ e.u then ρ e.v else ρ x, c + 1) := by
      show (if ρ e.u = ρ e.v then (ρ, c)
        else (fun x => if ρ x = ρ e.u then ρ e.v else ρ x, c + 1)) = _
      rw [if_neg hne]
    rw [hms]
    have hsp : ∀ (l1 : List EdgeC) (f : EdgeC) (l2 : List EdgeC),
        B' = l1 ++ f :: l2 → ¬ Conn ((P ++ [e]) ++ l1) f.u f.v := by
      intro l1 f l2 hsp2
      have h := hbr (e :: l1) f l2 (by rw [hsp2, List.cons_append])
      simpa [List.append_assoc] using h
    have h := ih (P ++ [e]) (fun x => if ρ x = ρ e.u then ρ e.v else ρ x) (c + 1)
      (label_merge P ρ e hiff) hsp
    rw [h]
    simp only [List.length_cons]
    omega

/-- Helper: the fold counts at most every edge. -/
theorem mergeFold_le : ∀ (B : List EdgeC) (ρ : ℕ → ℕ) (c : ℕ),
    (B.foldl mergeStep (ρ, c)).2 ≤ c + B.length := by
  intro B
  induction B with
  | nil =>
    intro ρ c
    simp [List.foldl_nil]
  | cons e B' ih =>
    intro ρ c
    rw [List.foldl_cons]
    by_cases heq : ρ e.u = ρ e.v
    · have hms : mergeStep (ρ, c) e = (ρ, c) := by
        show (if ρ e.u = ρ e.v then (ρ, c)
          else (fun x => if ρ x = ρ e.u then ρ e.v else ρ x, c + 1)) = (ρ, c)
        rw [if_pos heq]
      rw [hms]
      have h := ih ρ c
      simp only [List.length_cons]
      omega
    · have hms : mergeStep (ρ, c) e =
          (fun x => if ρ x = ρ e.u then ρ e.v else ρ x, c + 1) := by
        show (if ρ e.u = ρ e.v then (ρ, c)
          else (fun x => if ρ x = ρ e.u then ρ e.v else ρ x, c + 1)) = _
        rw [if_neg heq]
      rw [hms]
      have h := ih (fun x => if ρ x = ρ e.u then ρ e.v else ρ x) (c + 1)
      simp only [List.length_cons]
      omega

/-- Helper: the identity labelling tracks the empty connectivity. -/
theorem label_id : ∀ x y : ℕ, (fun i => i) x = (fun i => i) y ↔ Conn [] x y := by
  intro x y
  rw [conn_nil]

/-- Helper: an acyclic list merges a class at every edge: its merge count is
its length. -/
theorem mergeCount_acyclic (B : List EdgeC) (hacy : AcyclicEdges B) :
    mergeCount (fun i => i) B = B.length := by
  have h := mergeFold_all B [] (fun i => i) 0 label_id ?_
  · simpa using h
  · intro l1 f l2 hsp hc
    have hc' : Conn l1 f.u f.v := by simpa using hc
    exact hacy l1 f l2 hsp (conn_mono (fun k hk => List.mem_append_left l2 hk) hc')

/-- Helper: a list whose connectivity is dominated merges no more classes. -/
theorem mergeCount_le_of_conn (n : ℕ) (A B : List EdgeC)
    (hA : ∀ e ∈ A, e.u < n ∧ e.v < n) (hB : ∀ e ∈ B, e.u < n ∧ e.v < n)
    (hconn : ∀ x y, Conn B x y → Conn A x y) :
    mergeCount (fun i => i) B ≤ mergeCount (fun i => i) A := by
  obtain ⟨hiffA, hcardA⟩ := mergeFold_master n A [] (fun i => i) 0 label_id hA
  obtain ⟨hiffB, hcardB⟩ := mergeFold_master n B [] (fun i => i) 0 label_id hB
  simp only [List.nil_append] at hiffA hiffB
  have hcoarse : ∀ x y, (B.foldl mergeStep (fun i => i, 0)).1 x =
      (B.foldl mergeStep (fun i => i, 0)).1 y →
      (A.foldl mergeStep (fun i => i, 0)).1 x = (A.foldl mergeStep (fun i => i, 0)).1 y :=
    fun x y h => (hiffA x y).mpr (hconn x y ((hiffB x y).mp h))
  have himg : (Finset.range n).image (A.foldl mergeStep (fun i => i, 0)).1 =
      ((Finset.range n).image (B.foldl mergeStep (fun i => i, 0)).1).image
        (fun b => (A.foldl mergeStep (fun i => i, 0)).1
          (Function.invFunOn (B.foldl mergeStep (fun i => i, 0)).1 ↑(Finset.range n) b)) := by
    ext cc
    simp only [Finset.mem_image, Finset.mem_range]
    constructor
    · rintro ⟨v, hvn, hv⟩
      refine ⟨(B.foldl mergeStep (fun i => i, 0)).1 v, ⟨v, hvn, rfl⟩, ?_⟩
      have hex : ∃ a ∈ (↑(Finset.range n) : Set ℕ),
          (B.foldl mergeStep (fun i => i, 0)).1 a =
            (B.foldl mergeStep (fun i => i, 0)).1 v :=
        ⟨v, by simpa using hvn, rfl⟩
      exact (hcoarse _ v (Function.invFunOn_eq hex)).trans hv
    · rintro ⟨b, ⟨v, hvn, hbv⟩, hc⟩
      have hex : ∃ a ∈ (↑(Finset.range n) : Set ℕ),
          (B.foldl mergeStep (fun i => i, 0)).1 a = b :=
        ⟨v, by simpa using hvn, hbv⟩
      have h2 := Function.invFunOn_mem hex
      exact ⟨_, by simpa using h2, hc⟩
  have hcard : ((Finset.range n).image (A.foldl mergeStep (fun i => i, 0)).1).card ≤
      ((Finset.range n).image (B.foldl mergeStep (fun i => i, 0)).1).card := by
    rw [himg]
    exact Finset.card_image_le
  show (B.foldl mergeStep (fun i => i, 0)).2 ≤ (A.foldl mergeStep (fun i => i, 0)).2
  omega

/-! Assembling the Kruskal correctness facts. -/

/-- Helper: edge-wise domination of connectivity lifts to paths. -/
theorem conn_of_edges {A B : List EdgeC} (h : ∀ f ∈ B, Conn A f.u f.v) :
    ∀ {x y : ℕ}, Conn B x y → Conn A x y := by
  intro x y hc
  induction hc with
  | refl => exact Relation.ReflTransGen.refl
  | tail _ hstep ih =>
    obtain ⟨f, hf, hm⟩ := hstep
    rcases hm with ⟨h1, h2⟩ | ⟨h1, h2⟩
    · exact ih.trans (h1 ▸ h2 ▸ h f hf)
    · exact ih.trans (conn_symm (h2 ▸ h1 ▸ h f hf))

/-- Helper: a pointwise bound between equal-length weight lists bounds the
sums. -/
theorem sum_le_ptwise : ∀ (l1 l2 : List (WithTop ℚ)), l1.length = l2.length →
    (∀ (i : ℕ) (h1 : i < l1.length) (h2 : i < l2.length),
      l1.get ⟨i, h1⟩ ≤ l2.get ⟨i, h2⟩) →
    l1.sum ≤ l2.sum := by
  intro l1
  induction l1 with
  | nil =>
    intro l2 hlen _
    rw [List.length_eq_zero.mp hlen.symm]
  | cons a t ih =>
    intro l2 hlen hpt
    cases l2 with
    | nil => simp at hlen
    | cons b t2 =>
      have h0 : a ≤ b := hpt 0 (by simp) (by simp)
      have hrest : t.sum ≤ t2.sum := by
        refine ih t2 (by simpa using hlen) ?_
        intro i h1 h2
        exact hpt (i + 1) (by simpa using h1) (by simpa using h2)
      simp only [List.sum_cons]
      exact add_le_add h0 hrest

/-- Helper: in a weight-sorted list, weights are monotone in the index. -/
theorem sorted_weight_le {S : List EdgeC} (hs : List.Sorted wle S)
    (i j : ℕ) (hi : i < S.length) (hj : j < S.length) (hij : i ≤ j) :
    (S.get ⟨i, hi⟩).weight ≤ (S.get ⟨j, hj⟩).weight := by
  rcases Nat.lt_or_ge i j with hlt | hge
  · exact List.pairwise_iff_get.mp hs ⟨i, hi⟩ ⟨j, hj⟩ hlt
  · have : i = j := le_antisymm hij hge
    subst this
    exact le_rfl

/-- Helper: the finished Kruskal selection reaches everything the
finite-weight candidate edges reach. -/
theorem kruskal_spanning (n : ℕ) (edges : List EdgeC)
    (hE : ∀ e ∈ edges, e.u < n ∧ e.v < n) : ∀ a b : ℕ,
    Conn (edges.filter (fun e => decide (e.weight ≠ ⊤))) a b →
      Conn (kruskalRun n edges).mst a b := by
  obtain ⟨_, _, _, hSub, hFin, hCprop⟩ := kruskalRun_inv n edges hE
  refine fun a b => conn_of_edges ?_
  intro f hf
  have hfe : f ∈ edges := List.mem_of_mem_filter hf
  have hfTop : f.weight ≠ ⊤ := by simpa using List.of_mem_filter hf
  have hfs : f ∈ sortEdges edges := (sortEdges_perm edges).mem_iff.mpr hfe
  exact conn_mono (fun k hk => List.mem_of_mem_filter hk) (hCprop f hfs hfTop)

/-- Helper: the finished Kruskal selection has exactly the finite-weight
candidate connectivity. -/
theorem kruskal_conn_iff (n : ℕ) (edges : List EdgeC)
    (hE : ∀ e ∈ edges, e.u < n ∧ e.v < n) : ∀ a b : ℕ,
    Conn (edges.filter (fun e => decide (e.weight ≠ ⊤))) a b ↔
      Conn (kruskalRun n edges).mst a b := by
  obtain ⟨_, _, _, hSub, hFin, _⟩ := kruskalRun_inv n edges hE
  refine fun a b => ⟨kruskal_spanning n edges hE a b, conn_mono ?_⟩
  intro k hk
  refine List.mem_filter.mpr ⟨?_, decide_eq_true (hFin k hk)⟩
  exact (sortEdges_perm edges).mem_iff.mp (hSub.subset hk)

/-- Helper: every spanning forest of the finite-weight candidate graph has
as many edges as the Kruskal selection. -/
theorem kruskal_length_eq (n : ℕ) (edges : List EdgeC)
    (hE : ∀ e ∈ edges, e.u < n ∧ e.v < n) (T : List EdgeC)
    (hT : ∀ e ∈ T, e ∈ edges ∧ e.weight ≠ ⊤) (hTacy : AcyclicEdges T)
    (hTspan : ∀ a b : ℕ,
      Conn (edges.filter (fun e => decide (e.weight ≠ ⊤))) a b → Conn T a b) :
    (kruskalRun n edges).mst.length = T.length := by
  obtain ⟨_, _, hAcy, hSub, hFin, _⟩ := kruskalRun_inv n edges hE
  have hKend : ∀ e ∈ (kruskalRun n edges).mst, e.u < n ∧ e.v < n :=
    fun e he => hE e ((sortEdges_perm edges).mem_iff.mp (hSub.subset he))
  have hTend : ∀ e ∈ T, e.u < n ∧ e.v < n := fun e he => hE e (hT e he).1
  have hKT : ∀ x y : ℕ, Conn (kruskalRun n edges).mst x y → Conn T x y :=
    fun x y h => hTspan x y ((kruskal_conn_iff n edges hE x y).mpr h)
  have hTK : ∀ x y : ℕ, Conn T x y → Conn (kruskalRun n edges).mst x y := by
    intro x y h
    refine kruskal_spanning n edges hE x y (conn_mono ?_ h)
    intro k hk
    exact List.mem_filter.mpr ⟨(hT k hk).1, decide_eq_true (hT k hk).2⟩
  have h1 := mergeCount_acyclic (kruskalRun n edges).mst hAcy
  have h2 := mergeCount_acyclic T hTacy
  have h3 := mergeCount_le_of_conn n T (kruskalRun n edges).mst hTend hKend hKT
  have h4 := mergeCount_le_of_conn n (kruskalRun n edges).mst T hKend hTend hTK
  omega

/-- Helper: the Kruskal selection weighs no more than any spanning forest of
the finite-weight candidate graph (greedy exchange, via sorted pointwise
comparison). -/
theorem kruskal_min (n : ℕ) (edges : List EdgeC)
    (hE : ∀ e ∈ edges, e.u < n ∧ e.v < n) (T : List EdgeC)
    (hT : ∀ e ∈ T, e ∈ edges ∧ e.weight ≠ ⊤) (hTacy : AcyclicEdges T)
    (hTspan : ∀ a b : ℕ,
      Conn (edges.filter (fun e => decide (e.weight ≠ ⊤))) a b → Conn T a b) :
    weightSum (kruskalRun n edges).mst ≤ weightSum T := by
  obtain ⟨_, _, hAcy, hSub, hFin, hCprop⟩ := kruskalRun_inv n edges hE
  set K := (kruskalRun n edges).mst with hKdef
  set S := sortEdges T with hSdef
  have hSperm : S.Perm T := sortEdges_perm T
  have hlen : K.length = S.length := by
    have h := kruskal_length_eq n edges hE T hT hTacy hTspan
    rw [← hKdef] at h
    rw [h, hSperm.length_eq]
  have hKsorted : List.Sorted wle K := List.Pairwise.sublist hSub (sortEdges_sorted edges)
  have hSsorted : List.Sorted wle S := sortEdges_sorted T
  have hKend : ∀ e ∈ K, e.u < n ∧ e.v < n :=
    fun e he => hE e ((sortEdges_perm edges).mem_iff.mp (hSub.subset he))
  have hST : ∀ e ∈ S, e ∈ T := fun e he => hSperm.mem_iff.mp he
  have hSend : ∀ e ∈ S, e.u < n ∧ e.v < n := fun e he => hE e (hT e (hST e he)).1
  have hSacy : AcyclicEdges S := acyclic_perm hSperm.symm hTacy
  have hpt : ∀ (j : ℕ) (h1 : j < K.length) (h2 : j < S.length),
      (K.get ⟨j, h1⟩).weight ≤ (S.get ⟨j, h2⟩).weight := by
    intro j h1 h2
    by_contra hlt'
    have hlt : (S.get ⟨j, h2⟩).weight < (K.get ⟨j, h1⟩).weight := lt_of_not_le hlt'
    have hBacy : AcyclicEdges (S.take (j + 1)) := by
      refine acyclic_prefix (F := S.drop (j + 1)) ?_
      rw [List.take_append_drop]
      exact hSacy
    have hBend : ∀ e ∈ S.take (j + 1), e.u < n ∧ e.v < n :=
      fun e he => hSend e (List.take_subset _ _ he)
    have hAend : ∀ e ∈ K.take j, e.u < n ∧ e.v < n :=
      fun e he => hKend e (List.take_subset _ _ he)
    have hBA : ∀ f ∈ S.take (j + 1), Conn (K.take j) f.u f.v := by
      intro f hf
      have hfw : f.weight ≤ (S.get ⟨j, h2⟩).weight := by
        obtain ⟨⟨i, hi⟩, hget⟩ := List.mem_iff_get.mp hf
        have hi0 : i < min (j + 1) S.length := by simpa [List.length_take] using hi
        have hi' : i < S.length := (lt_min_iff.mp hi0).2
        have hij : i ≤ j := by
          have := (lt_min_iff.mp hi0).1
          omega
        have hgeteq : (S.take (j + 1)).get ⟨i, hi⟩ = S.get ⟨i, hi'⟩ := by
          simp [List.get_eq_getElem, List.getElem_take]
        calc f.weight = (S.get ⟨i, hi'⟩).weight := by rw [← hget, hgeteq]
        _ ≤ (S.get ⟨j, h2⟩).weight := sorted_weight_le hSsorted i j hi' h2 hij
      have hfT : f ∈ T := hST f (List.take_subset _ _ hf)
      have hfTop : f.weight ≠ ⊤ := (hT f hfT).2
      have hfs : f ∈ sortEdges edges := (sortEdges_perm edges).mem_iff.mpr (hT f hfT).1
      refine conn_mono ?_ (hCprop f hfs hfTop)
      intro k hk
      have hkK : k ∈ K := List.mem_of_mem_filter hk
      have hkw : k.weight ≤ f.weight := by simpa using List.of_mem_filter hk
      obtain ⟨⟨i, hi⟩, hget⟩ := List.mem_iff_get.mp hkK
      by_cases hij : i < j
      · have hi2 : i < (K.take j).length := by
          rw [List.length_take]
          exact lt_min hij hi
        have hkeq : (K.take j).get ⟨i, hi2⟩ = k := by
          rw [← hget]
          simp [List.get_eq_getElem, List.getElem_take]
        exact hkeq ▸ List.get_mem (K.take j) i hi2
      · exfalso
        have hKji : (K.get ⟨j, h1⟩).weight ≤ (K.get ⟨i, hi⟩).weight :=
          sorted_weight_le hKsorted j i h1 hi (le_of_not_lt hij)
        rw [hget] at hKji
        exact absurd (hKji.trans (hkw.trans hfw)) (not_le_of_lt hlt)
    have hc1 : mergeCount (fun i => i) (S.take (j + 1)) = (S.take (j + 1)).length :=
      mergeCount_acyclic _ hBacy
    have hlenB : (S.take (j + 1)).length = j + 1 := by
      rw [List.length_take]
      exact min_eq_left (by omega)
    have hc2 : mergeCount (fun i => i) (S.take (j + 1)) ≤
        mergeCount (fun i => i) (K.take j) :=
      mergeCount_le_of_conn n (K.take j) (S.take (j + 1)) hAend hBend
        (fun x y h => conn_of_edges hBA h)
    have hc3 : mergeCount (fun i => i) (K.take j) ≤ (K.take j).length := by
      have h := mergeFold_le (K.take j) (fun i => i) 0
      simpa [mergeCount, mergeRun] using h
    have hlenA : (K.take j).length ≤ j := by
      rw [List.length_take]
      exact min_le_left _ _
    omega
  have hsum : (K.map EdgeC.weight).sum ≤ (S.map EdgeC.weight).sum := by
    refine sum_le_ptwise _ _ (by simp [hlen]) ?_
    intro i h1 h2
    have h1' : i < K.length := by simpa using h1
    have h2' : i < S.length := by simpa using h2
    rw [List.get_map, List.get_map]
    exact hpt i h1' h2'
  have hST_sum : weightSum S = weightSum T := List.Perm.sum_eq (hSperm.map EdgeC.weight)
  calc weightSum K ≤ weightSum S := hsum
  _ = weightSum T := hST_sum

/-- C3: for every candidate edge list (over `n` nodes, every endpoint in
range), the edge set selected by the Kruskal pass — union-find over the
edges sorted by ascending weight — contains no infinite-weight edge, is
acyclic, connects exactly the pairs joined by the finite-weight candidate
edges (it spans every node reachable that way), and its total weight is
minimal among all spanning forests of the finite-weight candidate graph. -/
theorem kruskal_correct (n : ℕ) (edges : List EdgeC)
    (hE : ∀ e ∈ edges, e.u < n ∧ e.v < n) :
    (∀ e ∈ (kruskalRun n edges).mst, e.weight ≠ ⊤) ∧
    AcyclicEdges (kruskalRun n edges).mst ∧
    (∀ a b : ℕ, Conn (edges.filter (fun e => decide (e.weight ≠ ⊤))) a b ↔
      Conn (kruskalRun n edges).mst a b) ∧
    (∀ T : List EdgeC, (∀ e ∈ T, e ∈ edges ∧ e.weight ≠ ⊤) → AcyclicEdges T →
      (∀ a b : ℕ,
        Conn (edges.filter (fun e => decide (e.weight ≠ ⊤))) a b → Conn T a b) →
      weightSum (kruskalRun n edges).mst ≤ weightSum T) := by
  obtain ⟨_, _, hAcy, _, hFin, _⟩ := kruskalRun_inv n edges hE
  exact ⟨hFin, hAcy, kruskal_conn_iff n edges hE,
    fun T hT h1 h2 => kruskal_min n edges hE T hT h1 h2⟩

/-- C3 witness: the Kruskal correctness theorem applied to a concrete
two-node, one-edge candidate list. -/
theorem kruskal_correct_witness :
    (∀ e ∈ [EdgeC.mk 0 1 ((5 : ℚ) : WithTop ℚ)], e.u < 2 ∧ e.v < 2) ∧
    AcyclicEdges (kruskalRun 2 [EdgeC.mk 0 1 ((5 : ℚ) : WithTop ℚ)]).mst :=
  ⟨by decide,
   (kruskal_correct 2 [EdgeC.mk 0 1 ((5 : ℚ) : WithTop ℚ)] (by decide)).2.1⟩

end MapGen

